import Mathlib

/-
Verification of the keep-alive instance cache
(src/src/core/components/keep-alive.ts).

The component keeps a bounded, name/pattern-filtered cache of component
instances:
  * `cache` is a JS object mapping keys to `CacheEntry | null`
    (a `null` value is the tombstone written by `cache[key] = null`);
  * `keys` is the recency order (head = least recently used);
  * `max` is the optional capacity (`this.max`);
  * `_vnode` is the currently displayed node (its `tag` drives the
    destroy tie-break in `pruneCacheEntry`);
  * `vnodeToCache`/`keyToCache` hold the candidate staged by `render`
    and admitted by `cacheVNode` (commit);
  * calls to `$destroy` are recorded in an event log `destroyed`,
    identifying instances by a numeric id.

JS objects are modelled as association lists in insertion order, JS
truthiness of strings (`""` falsy) and of pattern props is modelled
explicitly, and `remove` from shared/util (indexOf + splice) is
`removeFirst` (drop the first occurrence).
-/

namespace KeepAlive

/-- A rendered virtual node; only its `tag` matters to the cache logic. -/
structure VNode where
  tag : Option String
deriving DecidableEq

/-- An entry of the keep-alive cache: the component name (for policy
checks), the vnode `tag` (for the destroy tie-break) and the cached
component instance, identified by a numeric id. -/
structure CacheEntry where
  name : Option String
  tag : Option String
  componentInstance : Nat
deriving DecidableEq

/-- The `cache` object: association list from key to `CacheEntry | null`
in insertion order; a `none` value is the tombstone `cache[key] = null`. -/
abbrev CacheMap := List (String × Option CacheEntry)

/-- An include/exclude pattern: a comma-separated string, an array of
names, or a RegExp (modelled by its acceptance function). -/
inductive KAPattern where
  | str (s : String)
  | arr (l : List String)
  | regexp (test : String → Bool)

/-- JS `s.split(',')`, by structural recursion on the character list. -/
def splitCommaAux : List Char → List Char → List String
  | [], acc => [String.mk acc.reverse]
  | c :: cs, acc =>
      if c = ',' then String.mk acc.reverse :: splitCommaAux cs []
      else splitCommaAux cs (c :: acc)

/-- JS `s.split(',')` on a string. -/
def splitComma (s : String) : List String :=
  splitCommaAux s.data []

/-- `matches` from the source: array membership, comma-separated string
membership, or RegExp test. -/
def matchesPat (pattern : KAPattern) (name : String) : Bool :=
  match pattern with
  | .arr l => decide (name ∈ l)
  | .str s => decide (name ∈ splitComma s)
  | .regexp test => test name

/-- JS truthiness of an optional pattern prop (`include &&` / `exclude &&`):
`undefined` and the empty string are falsy, arrays and RegExps truthy. -/
def truthyPat : Option KAPattern → Bool
  | none => false
  | some (.str s) => decide (s ≠ "")
  | some (.arr _) => true
  | some (.regexp _) => true

/-- JS truthiness of an optional component name (`!name`, `name &&`):
absent or empty means falsy. -/
def truthyStr : Option String → Bool
  | none => false
  | some s => decide (s ≠ "")

/-- `matches` lifted to an optional pattern; `matches(undefined, name)`
falls through every branch of the source and returns `false`. -/
def matchesV : Option KAPattern → String → Bool
  | none, _ => false
  | some p, n => matchesPat p n

/-- The admission check of `render`: the vnode bypasses the cache when
`(include && (!name || !matches(include, name))) ||
 (exclude && name && matches(exclude, name))`; it is admissible otherwise. -/
def isAdmissible (name : Option String) (inc exc : Option KAPattern) : Bool :=
  !((truthyPat inc && (!truthyStr name || !matchesV inc (name.getD ""))) ||
    (truthyPat exc && truthyStr name && matchesV exc (name.getD "")))

/-- The candidate staged by `render` on a cache miss
(`this.vnodeToCache = vnode; this.keyToCache = key`): the key plus the
fields of the vnode that `cacheVNode` will read. -/
structure Candidate where
  key : String
  name : Option String
  tag : Option String
  inst : Nat
deriving DecidableEq

/-- The mutable state of a keep-alive component. -/
structure KAState where
  cache : CacheMap
  keys : List String
  maxOpt : Option Nat
  current : Option VNode
  includePat : Option KAPattern
  excludePat : Option KAPattern
  staged : Option Candidate
  destroyed : List Nat

/-- `cache[key]` distinguishing never-set (`none`) from a stored value
(`some v`, where `v = none` is the `null` tombstone). -/
def getEnt : CacheMap → String → Option (Option CacheEntry)
  | [], _ => none
  | (k, v) :: rest, key => if k = key then some v else getEnt rest key

/-- `cache[key]` as used by the source's truthiness tests: both a missing
key and a `null` tombstone are falsy. -/
def getLive (c : CacheMap) (key : String) : Option CacheEntry :=
  match getEnt c key with
  | some v => v
  | none => none

/-- `cache[key] = v`: overwrite in place if the key exists, else append
(JS object insertion order). -/
def setVal : CacheMap → String → Option CacheEntry → CacheMap
  | [], key, v => [(key, v)]
  | (k, w) :: rest, key, v =>
      if k = key then (key, v) :: rest else (k, w) :: setVal rest key v

/-- The key list of the cache object, in iteration order. -/
def cacheKeys (c : CacheMap) : List String :=
  c.map Prod.fst

/-- The instances of all live (non-tombstone) entries. -/
def liveInsts (c : CacheMap) : List Nat :=
  c.filterMap (fun p => p.2.map CacheEntry.componentInstance)

/-- The keys of all live (non-tombstone) entries. -/
def liveKeys (c : CacheMap) : List String :=
  c.filterMap (fun p => p.2.map (fun _ => p.1))

/-- `remove(arr, item)` from shared/util: indexOf + splice, i.e. drop the
first occurrence. -/
def removeFirst : List String → String → List String
  | [], _ => []
  | x :: xs, key => if x = key then xs else x :: removeFirst xs key

/-- Deleting a key outright (for comparison with the tombstone state). -/
def eraseKey (c : CacheMap) (key : String) : CacheMap :=
  c.filter (fun p => decide (p.1 ≠ key))

/-- The `$destroy` calls issued by `pruneCacheEntry`: the instance of the
entry at `key` when the entry is live and either no current vnode was
passed (`!current`) or the entry's tag differs from the current tag. -/
def destroyEvents (cache : CacheMap) (key : String) (current : Option VNode) :
    List Nat :=
  match getLive cache key with
  | some entry =>
      match current with
      | none => [entry.componentInstance]
      | some cur => if entry.tag ≠ cur.tag then [entry.componentInstance] else []
  | none => []

/-- `pruneCacheEntry(cache, key, keys, current?)` from the source: invoke
`$destroy` on the entry's instance when the entry is live and either no
current vnode was passed or the tags differ; then write the tombstone and
remove the key. Returns the new cache, the new keys and the destroy events. -/
def pruneCacheEntry (cache : CacheMap) (key : String) (keys : List String)
    (current : Option VNode) : CacheMap × List String × List Nat :=
  (setVal cache key none, removeFirst keys key, destroyEvents cache key current)

/-- `pruneCacheEntry` acting on a component state, appending the destroy
events to the log. -/
def pruneKey (s : KAState) (key : String) (current : Option VNode) : KAState :=
  let r := pruneCacheEntry s.cache key s.keys current
  { s with cache := r.1, keys := r.2.1, destroyed := s.destroyed ++ r.2.2 }

/-- `cacheVNode()` (the commit): if a candidate is staged, store its entry,
push its key, evict the head when `this.max && keys.length > parseInt(max)`
(a numeric capacity is truthy when nonzero), then clear the staged vnode. -/
def cacheVNode (s : KAState) : KAState :=
  match s.staged with
  | none => s
  | some st =>
      let c1 := setVal s.cache st.key (some ⟨st.name, st.tag, st.inst⟩)
      let ks1 := s.keys ++ [st.key]
      let s1 : KAState := { s with cache := c1, keys := ks1, staged := none }
      match s.maxOpt with
      | some m =>
          if 0 < m ∧ m < ks1.length then pruneKey s1 (ks1.headD ("")) s.current
          else s1
      | none => s1

/-- The cache interaction of `render` for an admissible vnode: on a hit,
reuse the cached instance and move the key to the tail (`remove` + `push`);
on a miss, stage the candidate. Returns the looked-up instance. -/
def lookupStep (s : KAState) (c : Candidate) : KAState × Option Nat :=
  match getLive s.cache c.key with
  | some e =>
      ({ s with keys := removeFirst s.keys c.key ++ [c.key] }, some e.componentInstance)
  | none => ({ s with staged := some c }, none)

/-- A full `render` pass for the first component child, described by its
candidate data: the include/exclude check, then the cache lookup. -/
def renderStep (s : KAState) (c : Candidate) : KAState × Option Nat :=
  if isAdmissible c.name s.includePat s.excludePat then lookupStep s c
  else (s, none)

/-- One iteration of the `pruneCache` loop: prune the entry at `key` when
it is live and its name is truthy and fails the filter. -/
def pruneStepG (filter : String → Bool) (acc : KAState) (key : String) : KAState :=
  match getLive acc.cache key with
  | some entry =>
      match entry.name with
      | some n => if n ≠ "" ∧ filter n = false then pruneKey acc key acc.current else acc
      | none => acc
  | none => acc

/-- `pruneCache(keepAliveInstance, filter)` from the source: walk every key
of the cache object and prune the live entries whose name fails the filter,
passing `this._vnode` as the current node. -/
def pruneCache (s : KAState) (filter : String → Bool) : KAState :=
  (cacheKeys s.cache).foldl (pruneStepG filter) s

/-- The `include` watcher: record the new value and run
`pruneCache(this, name => matches(val, name))`. -/
def setInclude (s : KAState) (v : Option KAPattern) : KAState :=
  pruneCache { s with includePat := v } (fun name => matchesV v name)

/-- The `exclude` watcher: record the new value and run
`pruneCache(this, name => !matches(val, name))`. -/
def setExclude (s : KAState) (v : Option KAPattern) : KAState :=
  pruneCache { s with excludePat := v } (fun name => !matchesV v name)

/-- The `destroyed()` hook (store teardown): prune every key of the cache
object with no current vnode, so every live instance is destroyed. -/
def destroyedHook (s : KAState) : KAState :=
  (cacheKeys s.cache).foldl (fun acc key => pruneKey acc key none) s

/-- The cache entry built by `cacheVNode` from a staged candidate. -/
def entryOf (c : Candidate) : CacheEntry :=
  ⟨c.name, c.tag, c.inst⟩

/-- Stage a candidate and immediately commit it (one
`stageCandidate`+`commit` round). -/
def commitCand (s : KAState) (c : Candidate) : KAState :=
  cacheVNode { s with staged := some c }

/-- Commit a list of candidates in order. -/
def commitAll (s : KAState) (cs : List Candidate) : KAState :=
  cs.foldl commitCand s

/-- Store the entries of a candidate list into a cache map, in order. -/
def setAll (c : CacheMap) (cs : List Candidate) : CacheMap :=
  cs.foldl (fun a cand => setVal a cand.key (some (entryOf cand))) c

/-- The operations the host can call on the component, as visible at the
store boundary. -/
inductive Op where
  | render (c : Candidate)
  | commit
  | prune (key : String)
  | setInclude (v : Option KAPattern)
  | setExclude (v : Option KAPattern)
  | teardown
  | setCurrent (v : Option VNode)

/-- One operation step on the component state. -/
def step (s : KAState) (op : Op) : KAState :=
  match op with
  | .render c => (renderStep s c).1
  | .commit => cacheVNode s
  | .prune key => pruneKey s key s.current
  | .setInclude v => setInclude s v
  | .setExclude v => setExclude s v
  | .teardown => destroyedHook s
  | .setCurrent v => { s with current := v }

/-- Run a list of operations. -/
def runOps (s : KAState) : List Op → KAState
  | [] => s
  | op :: rest => runOps (step s op) rest

/-- True for every operation except the commit. -/
def noCommitB : Op → Bool
  | .commit => false
  | _ => true

/-- Host-protocol precondition of one operation: a render pass that would
stage a candidate must hand over a fresh instance — one that is neither
currently cached nor already destroyed (ownership transfers to the store
on commit, so the host cannot re-stage a stored or destroyed instance). -/
def opOKb (s : KAState) (op : Op) : Bool :=
  match op with
  | .render c =>
      !(isAdmissible c.name s.includePat s.excludePat && (getLive s.cache c.key).isNone) ||
      (!(decide (c.inst ∈ liveInsts s.cache)) && !(decide (c.inst ∈ s.destroyed)))
  | _ => true

/-- Host-protocol validity of an operation sequence. -/
def validOps (s : KAState) : List Op → Bool
  | [] => true
  | op :: rest => opOKb s op && validOps (step s op) rest

/-- The state set up by the `created()` hook, for a given configuration. -/
def initState (maxOpt : Option Nat) (cur : Option VNode)
    (inc exc : Option KAPattern) : KAState :=
  { cache := [], keys := [], maxOpt := maxOpt, current := cur,
    includePat := inc, excludePat := exc, staged := none, destroyed := [] }

/-- Decidable well-formedness of a component state: `keys` and the cache
keys are duplicate-free, `keys` and the live entries are in lockstep, live
instances are pairwise distinct and disjoint from the destroy log, the log
has no duplicates, and a staged candidate is a fresh key and instance. -/
def WFb (s : KAState) : Bool :=
  decide s.keys.Nodup &&
  decide (cacheKeys s.cache).Nodup &&
  s.keys.all (fun k => (getLive s.cache k).isSome) &&
  (liveKeys s.cache).all (fun k => decide (k ∈ s.keys)) &&
  decide (liveInsts s.cache).Nodup &&
  decide s.destroyed.Nodup &&
  (liveInsts s.cache).all (fun i => !(decide (i ∈ s.destroyed))) &&
  (match s.staged with
   | none => true
   | some c =>
       (getLive s.cache c.key).isNone &&
       !(decide (c.inst ∈ liveInsts s.cache)) &&
       !(decide (c.inst ∈ s.destroyed)))

/-- The condition under which the `include` watcher prunes a live entry:
a truthy name that does not match the new include value. -/
def failsInc (v : Option KAPattern) (e : CacheEntry) : Bool :=
  match e.name with
  | some n => decide (n ≠ "") && !matchesV v n
  | none => false

/-- The condition under which the `exclude` watcher prunes a live entry:
a truthy name that matches the new exclude value. -/
def failsExc (v : Option KAPattern) (e : CacheEntry) : Bool :=
  match e.name with
  | some n => decide (n ≠ "") && matchesV v n
  | none => false

/-- The generic prune condition of `pruneCache` for a filter. -/
def nameFails (filter : String → Bool) (e : CacheEntry) : Bool :=
  match e.name with
  | some n => decide (n ≠ "") && !filter n
  | none => false

/-- Whether `pruneCache` with the given filter removes the entry at a key. -/
def prunedBy (s : KAState) (filter : String → Bool) (k : String) : Bool :=
  match getLive s.cache k with
  | some e => nameFails filter e
  | none => false

/-- Whether a policy change whose per-entry prune condition is `cond`
removes the live entry at `k`. -/
def prunedEntry (s : KAState) (cond : CacheEntry → Bool) (k : String) : Bool :=
  match getLive s.cache k with
  | some e => cond e
  | none => false

/-- Admissibility as the specification words it, with JS truthiness made
explicit: inadmissible when a truthy include pattern is set and the name is
not truthy or fails to match it, or when a truthy exclude pattern is set
and the name is truthy and matches it. -/
def isAdmissibleSpec (name : Option String) (inc exc : Option KAPattern) : Bool :=
  if truthyPat inc && !(truthyStr name && matchesV inc (name.getD "")) then false
  else if truthyPat exc && truthyStr name && matchesV exc (name.getD "") then false
  else true

/-- Admissibility read literally from the claim, where any provided
pattern counts as set and any provided name as present: false when include
is provided and the name is absent or fails it; false when exclude is
provided and the name is present and matches it; true otherwise. -/
def isAdmissibleClaim (name : Option String) (inc exc : Option KAPattern) : Bool :=
  if inc.isSome && !(name.isSome && matchesV inc (name.getD "")) then false
  else if exc.isSome && name.isSome && matchesV exc (name.getD "") then false
  else true

/-- State `t` only loses cache content relative to `s`: every slot is
unchanged or emptied, and no key enters the order. -/
def Shrinks (s t : KAState) : Prop :=
  (∀ k, getLive t.cache k = getLive s.cache k ∨ getLive t.cache k = none) ∧
  (∀ k, k ∈ t.keys → k ∈ s.keys)

/-- Structural well-formedness: `keys` and the cache keys are
duplicate-free, `keys` lists exactly the live entries, and a staged
candidate's key has no live entry (`render` stages only on a miss). -/
structure SWF (s : KAState) : Prop where
  keysNodup : s.keys.Nodup
  cacheNodup : (cacheKeys s.cache).Nodup
  keysLive : ∀ k, k ∈ s.keys → getLive s.cache k ≠ none
  liveMem : ∀ k e, getLive s.cache k = some e → k ∈ s.keys
  stagedMiss : ∀ c, s.staged = some c → getLive s.cache c.key = none

/-- Instance-tracking well-formedness: live instances are pairwise
distinct, the destroy log has no duplicates, live instances are not in
the log, and a staged instance is fresh. -/
structure DWF (s : KAState) : Prop where
  liveNodup : (liveInsts s.cache).Nodup
  destNodup : s.destroyed.Nodup
  liveDest : ∀ k e, getLive s.cache k = some e → e.componentInstance ∉ s.destroyed
  stagedFreshLive : ∀ c, s.staged = some c → c.inst ∉ liveInsts s.cache
  stagedFreshDest : ∀ c, s.staged = some c → c.inst ∉ s.destroyed

theorem removeFirst_eq_erase (l : List String) (k : String) :
    removeFirst l k = l.erase k := by
  induction l with
  | nil => rfl
  | cons x xs ih =>
      by_cases h : x = k
      · simp [removeFirst, List.erase_cons, h]
      · simp [removeFirst, List.erase_cons, h, ih]

theorem removeFirst_nodup {l : List String} (h : l.Nodup) (k : String) :
    (removeFirst l k).Nodup := by
  rw [removeFirst_eq_erase]
  exact h.erase k

theorem mem_of_mem_removeFirst {l : List String} {a k : String}
    (h : a ∈ removeFirst l k) : a ∈ l := by
  rw [removeFirst_eq_erase] at h
  exact List.mem_of_mem_erase h

theorem mem_removeFirst_of_ne {l : List String} {a k : String} (hne : a ≠ k)
    (h : a ∈ l) : a ∈ removeFirst l k := by
  rw [removeFirst_eq_erase]
  exact List.mem_erase_of_ne hne |>.mpr h

theorem not_mem_removeFirst {l : List String} (h : l.Nodup) (k : String) :
    k ∉ removeFirst l k := by
  rw [removeFirst_eq_erase]
  exact h.not_mem_erase

theorem removeFirst_eq_filter {l : List String} (h : l.Nodup) (k : String) :
    removeFirst l k = l.filter (fun x => x != k) := by
  rw [removeFirst_eq_erase]
  exact h.erase_eq_filter k

theorem length_removeFirst_of_mem {l : List String} {k : String} (h : k ∈ l) :
    (removeFirst l k).length = l.length - 1 := by
  rw [removeFirst_eq_erase]
  exact List.length_erase_of_mem h

theorem length_removeFirst_le (l : List String) (k : String) :
    (removeFirst l k).length ≤ l.length := by
  rw [removeFirst_eq_erase]
  exact (List.erase_sublist k l).length_le

theorem removeFirst_of_not_mem {l : List String} {k : String} (h : k ∉ l) :
    removeFirst l k = l := by
  rw [removeFirst_eq_erase]
  exact List.erase_of_not_mem h

theorem getLive_cons_self (k : String) (v : Option CacheEntry) (rest : CacheMap) :
    getLive ((k, v) :: rest) k = v := by
  cases v <;> simp [getLive, getEnt]

theorem getLive_cons_ne {k k2 : String} (h : k ≠ k2) (v : Option CacheEntry)
    (rest : CacheMap) : getLive ((k, v) :: rest) k2 = getLive rest k2 := by
  simp [getLive, getEnt, h]

theorem getLive_nil (k : String) : getLive [] k = none := rfl

theorem getLive_eq_some_iff {c : CacheMap} {k : String} {e : CacheEntry} :
    getLive c k = some e ↔ getEnt c k = some (some e) := by
  unfold getLive
  cases hget : getEnt c k with
  | none => simp
  | some v => cases v <;> simp

theorem cacheKeys_cons (k : String) (v : Option CacheEntry) (rest : CacheMap) :
    cacheKeys ((k, v) :: rest) = k :: cacheKeys rest := rfl

theorem liveInsts_cons_none (k : String) (rest : CacheMap) :
    liveInsts ((k, none) :: rest) = liveInsts rest := by
  simp [liveInsts]

theorem liveInsts_cons_some (k : String) (e : CacheEntry) (rest : CacheMap) :
    liveInsts ((k, some e) :: rest) = e.componentInstance :: liveInsts rest := by
  simp [liveInsts]

theorem liveKeys_cons_none (k : String) (rest : CacheMap) :
    liveKeys ((k, none) :: rest) = liveKeys rest := by
  simp [liveKeys]

theorem liveKeys_cons_some (k : String) (e : CacheEntry) (rest : CacheMap) :
    liveKeys ((k, some e) :: rest) = k :: liveKeys rest := by
  simp [liveKeys]

theorem getEnt_setVal (c : CacheMap) (k k2 : String) (v : Option CacheEntry) :
    getEnt (setVal c k v) k2 = if k = k2 then some v else getEnt c k2 := by
  induction c with
  | nil =>
      by_cases h : k = k2 <;> simp [setVal, getEnt, h]
  | cons p rest ih =>
      obtain ⟨k1, v1⟩ := p
      by_cases h : k1 = k
      · subst h
        by_cases h2 : k1 = k2 <;> simp [setVal, getEnt, h2]
      · by_cases h2 : k1 = k2
        · subst h2
          simp [setVal, getEnt, h, Ne.symm h]
        · simp [setVal, getEnt, h, h2, ih]

theorem getLive_setVal (c : CacheMap) (k k2 : String) (v : Option CacheEntry) :
    getLive (setVal c k v) k2 = if k = k2 then v else getLive c k2 := by
  unfold getLive
  rw [getEnt_setVal]
  by_cases h : k = k2 <;> simp [h]

theorem mem_cacheKeys_setVal {c : CacheMap} {a k : String} {v : Option CacheEntry} :
    a ∈ cacheKeys (setVal c k v) ↔ a ∈ cacheKeys c ∨ a = k := by
  induction c with
  | nil => simp [setVal, cacheKeys, eq_comm]
  | cons p rest ih =>
      obtain ⟨k1, v1⟩ := p
      by_cases h : k1 = k
      · subst h
        simp [setVal, cacheKeys, eq_comm]
        tauto
      · simp only [setVal, if_neg h, cacheKeys_cons, List.mem_cons] at ih ⊢
        rw [ih]
        tauto

theorem nodup_cacheKeys_setVal {c : CacheMap} (h : (cacheKeys c).Nodup)
    (k : String) (v : Option CacheEntry) : (cacheKeys (setVal c k v)).Nodup := by
  induction c with
  | nil => simp [setVal, cacheKeys]
  | cons p rest ih =>
      obtain ⟨k1, v1⟩ := p
      rw [cacheKeys_cons, List.nodup_cons] at h
      by_cases hk : k1 = k
      · subst hk
        rw [setVal, if_pos rfl, cacheKeys_cons, List.nodup_cons]
        exact h
      · rw [setVal, if_neg hk, cacheKeys_cons, List.nodup_cons]
        refine ⟨?_, ih h.2⟩
        intro hmem
        rcases mem_cacheKeys_setVal.mp hmem with hm | hm
        · exact h.1 hm
        · exact hk hm

theorem getEnt_eq_none_iff {c : CacheMap} {k : String} :
    getEnt c k = none ↔ k ∉ cacheKeys c := by
  induction c with
  | nil => simp [getEnt, cacheKeys]
  | cons p rest ih =>
      obtain ⟨k1, v1⟩ := p
      by_cases h : k1 = k
      · subst h
        simp [getEnt, cacheKeys]
      · rw [cacheKeys_cons, List.mem_cons]
        rw [getEnt, if_neg h, ih]
        constructor
        · intro hn hc
          rcases hc with hc | hc
          · exact h hc.symm
          · exact hn hc
        · intro hn hc
          exact hn (Or.inr hc)

theorem mem_cacheKeys_of_getLive {c : CacheMap} {k : String} {e : CacheEntry}
    (h : getLive c k = some e) : k ∈ cacheKeys c := by
  by_contra hmem
  rw [getLive, getEnt_eq_none_iff.mpr hmem] at h
  exact Option.noConfusion h

theorem getEnt_mem {c : CacheMap} {k : String} {v : Option CacheEntry}
    (h : getEnt c k = some v) : (k, v) ∈ c := by
  induction c with
  | nil => exact absurd h (by simp [getEnt])
  | cons p rest ih =>
      obtain ⟨k1, v1⟩ := p
      by_cases hk : k1 = k
      · subst hk
        rw [getEnt, if_pos rfl] at h
        rw [Option.some_inj] at h
        subst h
        exact List.mem_cons_self _ _
      · rw [getEnt, if_neg hk] at h
        exact List.mem_cons_of_mem _ (ih h)

theorem mem_liveInsts_of_getLive {c : CacheMap} {k : String} {e : CacheEntry}
    (h : getLive c k = some e) : e.componentInstance ∈ liveInsts c := by
  have hmem := getEnt_mem (getLive_eq_some_iff.mp h)
  simp only [liveInsts, List.mem_filterMap]
  exact ⟨(k, some e), hmem, rfl⟩

theorem mem_liveKeys_of_getLive {c : CacheMap} {k : String} {e : CacheEntry}
    (h : getLive c k = some e) : k ∈ liveKeys c := by
  have hmem := getEnt_mem (getLive_eq_some_iff.mp h)
  simp only [liveKeys, List.mem_filterMap]
  exact ⟨(k, some e), hmem, rfl⟩

theorem liveInsts_pairwise {c : CacheMap} (hc : (cacheKeys c).Nodup)
    (hl : (liveInsts c).Nodup) {k1 k2 : String} {e1 e2 : CacheEntry}
    (h1 : getLive c k1 = some e1) (h2 : getLive c k2 = some e2)
    (hi : e1.componentInstance = e2.componentInstance) : k1 = k2 := by
  induction c with
  | nil => simp [getLive, getEnt] at h1
  | cons p rest ih =>
      obtain ⟨k0, v0⟩ := p
      rw [cacheKeys_cons, List.nodup_cons] at hc
      by_cases ha : k0 = k1 <;> by_cases hb : k0 = k2
      · rw [← ha, ← hb]
      · subst ha
        rw [getLive_cons_self] at h1
        rw [getLive_cons_ne hb] at h2
        subst h1
        rw [liveInsts_cons_some, List.nodup_cons] at hl
        exact absurd (hi ▸ mem_liveInsts_of_getLive h2) hl.1
      · subst hb
        rw [getLive_cons_self] at h2
        rw [getLive_cons_ne ha] at h1
        subst h2
        rw [liveInsts_cons_some, List.nodup_cons] at hl
        exact absurd (hi ▸ mem_liveInsts_of_getLive h1) hl.1
      · rw [getLive_cons_ne ha] at h1
        rw [getLive_cons_ne hb] at h2
        have hlr : (liveInsts rest).Nodup := by
          cases v0 with
          | none => rwa [liveInsts_cons_none] at hl
          | some e0 => exact (List.nodup_cons.mp (by rwa [liveInsts_cons_some] at hl)).2
        exact ih hc.2 hlr h1 h2

theorem mem_liveInsts_setVal {c : CacheMap} {i : Nat} {k : String}
    {v : Option CacheEntry} (h : i ∈ liveInsts (setVal c k v)) :
    i ∈ liveInsts c ∨ (∃ e, v = some e ∧ i = e.componentInstance) := by
  induction c with
  | nil =>
      cases v with
      | none => simp [setVal, liveInsts] at h
      | some e =>
          rw [show setVal [] k (some e) = [(k, some e)] from rfl,
            liveInsts_cons_some] at h
          simp only [liveInsts] at h ⊢
          simp at h
          exact Or.inr ⟨e, rfl, h⟩
  | cons p rest ih =>
      obtain ⟨k1, v1⟩ := p
      by_cases hk : k1 = k
      · subst hk
        rw [setVal, if_pos rfl] at h
        cases v with
        | none =>
            rw [liveInsts_cons_none] at h
            cases v1 with
            | none => rw [liveInsts_cons_none]; exact Or.inl h
            | some e1 => rw [liveInsts_cons_some]; exact Or.inl (List.mem_cons_of_mem _ h)
        | some e =>
            rw [liveInsts_cons_some] at h
            rcases List.mem_cons.mp h with h | h
            · exact Or.inr ⟨e, rfl, h⟩
            · cases v1 with
              | none => rw [liveInsts_cons_none]; exact Or.inl h
              | some e1 => rw [liveInsts_cons_some]; exact Or.inl (List.mem_cons_of_mem _ h)
      · rw [setVal, if_neg hk] at h
        cases v1 with
        | none =>
            rw [liveInsts_cons_none] at h ⊢
            exact ih h
        | some e1 =>
            rw [liveInsts_cons_some] at h ⊢
            rcases List.mem_cons.mp h with h | h
            · exact Or.inl (List.mem_cons.mpr (Or.inl h))
            · rcases ih h with h2 | h2
              · exact Or.inl (List.mem_cons.mpr (Or.inr h2))
              · exact Or.inr h2

theorem nodup_liveInsts_setVal {c : CacheMap} (hn : (liveInsts c).Nodup)
    {k : String} {v : Option CacheEntry}
    (hv : ∀ e, v = some e → e.componentInstance ∉ liveInsts c) :
    (liveInsts (setVal c k v)).Nodup := by
  induction c with
  | nil =>
      cases v with
      | none => simp [setVal, liveInsts]
      | some e => simp [setVal, liveInsts]
  | cons p rest ih =>
      obtain ⟨k1, v1⟩ := p
      by_cases hk : k1 = k
      · subst hk
        rw [setVal, if_pos rfl]
        have hrest : (liveInsts rest).Nodup := by
          cases v1 with
          | none => rwa [liveInsts_cons_none] at hn
          | some e1 => exact (List.nodup_cons.mp (by rwa [liveInsts_cons_some] at hn)).2
        cases v with
        | none => rwa [liveInsts_cons_none]
        | some e =>
            rw [liveInsts_cons_some, List.nodup_cons]
            refine ⟨?_, hrest⟩
            intro hmem
            refine hv e rfl ?_
            cases v1 with
            | none => rwa [liveInsts_cons_none]
            | some e1 => rw [liveInsts_cons_some]; exact List.mem_cons_of_mem _ hmem
      · rw [setVal, if_neg hk]
        cases v1 with
        | none =>
            rw [liveInsts_cons_none] at hn ⊢
            refine ih hn ?_
            intro e he hmem
            exact hv e he (by rwa [liveInsts_cons_none])
        | some e1 =>
            rw [liveInsts_cons_some] at hn ⊢
            have hn2 := List.nodup_cons.mp hn
            rw [List.nodup_cons]
            refine ⟨?_, ?_⟩
            · intro hmem
              rcases mem_liveInsts_setVal hmem with h | h
              · exact hn2.1 h
              · obtain ⟨e, he, hi⟩ := h
                refine hv e he ?_
                rw [liveInsts_cons_some, ← hi]
                exact List.mem_cons_self _ _
            · refine ih hn2.2 ?_
              intro e he hmem
              refine hv e he ?_
              rw [liveInsts_cons_some]
              exact List.mem_cons_of_mem _ hmem

theorem setVal_self {c : CacheMap} {k : String}
    (h : getEnt c k = some none) : setVal c k none = c := by
  induction c with
  | nil => simp [getEnt] at h
  | cons p rest ih =>
      obtain ⟨k1, v1⟩ := p
      by_cases hk : k1 = k
      · subst hk
        rw [getEnt, if_pos rfl, Option.some_inj] at h
        rw [setVal, if_pos rfl, h]
      · rw [getEnt, if_neg hk] at h
        rw [setVal, if_neg hk, ih h]

theorem getLive_eraseKey (c : CacheMap) (k k2 : String) :
    getLive (eraseKey c k) k2 = getLive (setVal c k none) k2 := by
  rw [getLive_setVal]
  induction c with
  | nil =>
      by_cases h : k = k2 <;> simp [eraseKey, getLive, getEnt, h]
  | cons p rest ih =>
      obtain ⟨k1, v1⟩ := p
      by_cases hk : k1 = k
      · subst hk
        by_cases h2 : k1 = k2
        · subst h2
          simpa [eraseKey, if_pos rfl] using ih
        · rw [show eraseKey ((k1, v1) :: rest) k1 = eraseKey rest k1 by
            simp [eraseKey]]
          rw [if_neg h2] at ih ⊢
          rw [ih, getLive_cons_ne h2]
      · have herase : eraseKey ((k1, v1) :: rest) k = (k1, v1) :: eraseKey rest k := by
          simp [eraseKey, hk]
        rw [herase]
        by_cases h2 : k1 = k2
        · subst h2
          rw [getLive_cons_self, if_neg (fun hh => hk hh.symm), getLive_cons_self]
        · rw [getLive_cons_ne h2, getLive_cons_ne h2, ih]

theorem destroyEvents_none {c : CacheMap} {key : String} {cur : Option VNode}
    (h : getLive c key = none) : destroyEvents c key cur = [] := by
  unfold destroyEvents
  rw [h]

theorem destroyEvents_live_none {c : CacheMap} {key : String} {e : CacheEntry}
    (h : getLive c key = some e) :
    destroyEvents c key none = [e.componentInstance] := by
  unfold destroyEvents
  rw [h]

theorem destroyEvents_live_some {c : CacheMap} {key : String} {e : CacheEntry}
    (h : getLive c key = some e) (v : VNode) :
    destroyEvents c key (some v) =
      if e.tag ≠ v.tag then [e.componentInstance] else [] := by
  unfold destroyEvents
  rw [h]

theorem destroyEvents_sub {c : CacheMap} {key : String} {cur : Option VNode}
    {i : Nat} (h : i ∈ destroyEvents c key cur) :
    ∃ e, getLive c key = some e ∧ i = e.componentInstance := by
  cases hget : getLive c key with
  | none =>
      rw [destroyEvents_none hget] at h
      exact absurd h (List.not_mem_nil i)
  | some e =>
      refine ⟨e, rfl, ?_⟩
      cases cur with
      | none =>
          rw [destroyEvents_live_none hget] at h
          simpa using h
      | some v =>
          rw [destroyEvents_live_some hget] at h
          by_cases ht : e.tag ≠ v.tag
          · rw [if_pos ht] at h
            simpa using h
          · rw [if_neg ht] at h
            simp at h

theorem pruneKey_cache (s : KAState) (key : String) (cur : Option VNode) :
    (pruneKey s key cur).cache = setVal s.cache key none := rfl

theorem pruneKey_keys (s : KAState) (key : String) (cur : Option VNode) :
    (pruneKey s key cur).keys = removeFirst s.keys key := rfl

theorem pruneKey_destroyed (s : KAState) (key : String) (cur : Option VNode) :
    (pruneKey s key cur).destroyed = s.destroyed ++ destroyEvents s.cache key cur := rfl

theorem pruneKey_staged (s : KAState) (key : String) (cur : Option VNode) :
    (pruneKey s key cur).staged = s.staged := rfl

theorem pruneKey_maxOpt (s : KAState) (key : String) (cur : Option VNode) :
    (pruneKey s key cur).maxOpt = s.maxOpt := rfl

theorem pruneKey_current (s : KAState) (key : String) (cur : Option VNode) :
    (pruneKey s key cur).current = s.current := rfl

theorem pruneKey_includePat (s : KAState) (key : String) (cur : Option VNode) :
    (pruneKey s key cur).includePat = s.includePat := rfl

theorem pruneKey_excludePat (s : KAState) (key : String) (cur : Option VNode) :
    (pruneKey s key cur).excludePat = s.excludePat := rfl

theorem pruneKey_getLive (s : KAState) (key : String) (cur : Option VNode)
    (k : String) :
    getLive (pruneKey s key cur).cache k = if key = k then none else getLive s.cache k := by
  rw [pruneKey_cache, getLive_setVal]

theorem swf_of_wfb {s : KAState} (h : WFb s = true) : SWF s := by
  unfold WFb at h
  simp only [Bool.and_eq_true, decide_eq_true_eq, List.all_eq_true] at h
  obtain ⟨⟨⟨⟨⟨⟨⟨h1, h2⟩, h3⟩, h4⟩, h5⟩, h6⟩, h7⟩, h8⟩ := h
  refine ⟨h1, h2, ?_, ?_, ?_⟩
  · intro k hk hnone
    have := h3 k hk
    rw [hnone] at this
    simp at this
  · intro k e he
    exact h4 k (mem_liveKeys_of_getLive he)
  · intro c hc
    simp only [hc, Bool.and_eq_true, Option.isNone_iff_eq_none] at h8
    exact h8.1.1

theorem dwf_of_wfb {s : KAState} (h : WFb s = true) : DWF s := by
  unfold WFb at h
  simp only [Bool.and_eq_true, decide_eq_true_eq, List.all_eq_true,
    Bool.not_eq_true', decide_eq_false_iff_not] at h
  obtain ⟨⟨⟨⟨⟨⟨⟨h1, h2⟩, h3⟩, h4⟩, h5⟩, h6⟩, h7⟩, h8⟩ := h
  refine ⟨h5, h6, ?_, ?_, ?_⟩
  · intro k e he
    exact h7 _ (mem_liveInsts_of_getLive he)
  · intro c hc
    simp only [hc, Bool.and_eq_true, Bool.not_eq_true', decide_eq_false_iff_not] at h8
    exact h8.1.2
  · intro c hc
    simp only [hc, Bool.and_eq_true, Bool.not_eq_true', decide_eq_false_iff_not] at h8
    exact h8.2

theorem pruneKey_swf {s : KAState} (h : SWF s) (key : String) (cur : Option VNode) :
    SWF (pruneKey s key cur) := by
  refine ⟨?_, ?_, ?_, ?_, ?_⟩
  · rw [pruneKey_keys]
    exact removeFirst_nodup h.keysNodup key
  · rw [pruneKey_cache]
    exact nodup_cacheKeys_setVal h.cacheNodup key none
  · intro k hk
    rw [pruneKey_keys] at hk
    have hne : key ≠ k := by
      intro he
      exact not_mem_removeFirst h.keysNodup key (he ▸ hk)
    rw [pruneKey_getLive, if_neg hne]
    exact h.keysLive k (mem_of_mem_removeFirst hk)
  · intro k e he
    rw [pruneKey_getLive] at he
    by_cases hne : key = k
    · rw [if_pos hne] at he
      exact Option.noConfusion he
    · rw [if_neg hne] at he
      rw [pruneKey_keys]
      exact mem_removeFirst_of_ne (fun a => hne a.symm) (h.liveMem k e he)
  · intro c hc
    rw [pruneKey_staged] at hc
    rw [pruneKey_getLive]
    by_cases hne : key = c.key
    · rw [if_pos hne]
    · rw [if_neg hne]
      exact h.stagedMiss c hc

theorem pruneKey_dwf {s : KAState} (hs : SWF s) (h : DWF s) (key : String)
    (cur : Option VNode) : DWF (pruneKey s key cur) := by
  refine ⟨?_, ?_, ?_, ?_, ?_⟩
  · rw [pruneKey_cache]
    exact nodup_liveInsts_setVal h.liveNodup (fun e he => Option.noConfusion he)
  · rw [pruneKey_destroyed, List.nodup_append]
    refine ⟨h.destNodup, ?_, ?_⟩
    · cases hget : getLive s.cache key with
      | none => rw [destroyEvents_none hget]; simp
      | some e =>
          cases cur with
          | none => rw [destroyEvents_live_none hget]; simp
          | some v =>
              rw [destroyEvents_live_some hget]
              by_cases ht : e.tag ≠ v.tag
              · rw [if_pos ht]; simp
              · rw [if_neg ht]; simp
    · intro i hi hi2
      obtain ⟨e, he, hie⟩ := destroyEvents_sub hi2
      exact h.liveDest key e he (hie ▸ hi)
  · intro k e he
    rw [pruneKey_getLive] at he
    by_cases hne : key = k
    · rw [if_pos hne] at he
      exact Option.noConfusion he
    · rw [if_neg hne] at he
      rw [pruneKey_destroyed]
      intro hmem
      rcases List.mem_append.mp hmem with hmem | hmem
      · exact h.liveDest k e he hmem
      · obtain ⟨e2, he2, hie⟩ := destroyEvents_sub hmem
        exact hne (liveInsts_pairwise hs.cacheNodup h.liveNodup he2 he hie.symm)
  · intro c hc
    rw [pruneKey_staged] at hc
    rw [pruneKey_cache]
    intro hmem
    rcases mem_liveInsts_setVal hmem with hm | hm
    · exact h.stagedFreshLive c hc hm
    · obtain ⟨e, he, _⟩ := hm
      exact Option.noConfusion he
  · intro c hc
    rw [pruneKey_staged] at hc
    rw [pruneKey_destroyed]
    intro hmem
    rcases List.mem_append.mp hmem with hmem | hmem
    · exact h.stagedFreshDest c hc hmem
    · obtain ⟨e, he, hie⟩ := destroyEvents_sub hmem
      exact h.stagedFreshLive c hc (hie ▸ mem_liveInsts_of_getLive he)

theorem cacheVNode_none {s : KAState} (h : s.staged = none) : cacheVNode s = s := by
  unfold cacheVNode
  rw [h]

theorem admit_swf {s : KAState} {st : Candidate} (hw : SWF s) (h : s.staged = some st) :
    SWF { s with
          cache := setVal s.cache st.key (some (entryOf st))
          keys := s.keys ++ [st.key]
          staged := none } := by
  have hmiss : getLive s.cache st.key = none := hw.stagedMiss st h
  have hkmem : st.key ∉ s.keys := fun hk => hw.keysLive st.key hk hmiss
  refine ⟨?_, ?_, ?_, ?_, ?_⟩
  · rw [List.nodup_append]
    refine ⟨hw.keysNodup, List.nodup_singleton _, ?_⟩
    intro a ha hb
    rw [List.mem_singleton] at hb
    exact hkmem (hb ▸ ha)
  · exact nodup_cacheKeys_setVal hw.cacheNodup _ _
  · intro k hk
    rw [getLive_setVal]
    by_cases he : st.key = k
    · rw [if_pos he]
      simp
    · rw [if_neg he]
      rcases List.mem_append.mp hk with hk | hk
      · exact hw.keysLive k hk
      · rw [List.mem_singleton] at hk
        exact absurd hk.symm he
  · intro k e he
    rw [getLive_setVal] at he
    by_cases hke : st.key = k
    · exact List.mem_append.mpr (Or.inr (by rw [List.mem_singleton, hke]))
    · rw [if_neg hke] at he
      exact List.mem_append.mpr (Or.inl (hw.liveMem k e he))
  · intro c hc
    exact absurd hc (by simp)

theorem admit_dwf {s : KAState} {st : Candidate} (hw : DWF s) (h : s.staged = some st) :
    DWF { s with
          cache := setVal s.cache st.key (some (entryOf st))
          keys := s.keys ++ [st.key]
          staged := none } := by
  have hfl := hw.stagedFreshLive st h
  have hfd := hw.stagedFreshDest st h
  refine ⟨?_, hw.destNodup, ?_, ?_, ?_⟩
  · refine nodup_liveInsts_setVal hw.liveNodup ?_
    intro e he
    rw [Option.some_inj] at he
    rw [← he]
    exact hfl
  · intro k e he
    rw [getLive_setVal] at he
    by_cases hke : st.key = k
    · rw [if_pos hke, Option.some_inj] at he
      rw [← he]
      exact hfd
    · rw [if_neg hke] at he
      exact hw.liveDest k e he
  · intro c hc
    exact absurd hc (by simp)
  · intro c hc
    exact absurd hc (by simp)

theorem cacheVNode_some_eq {s : KAState} {st : Candidate} (h : s.staged = some st) :
    cacheVNode s =
      (match s.maxOpt with
       | some m =>
           if 0 < m ∧ m < (s.keys ++ [st.key]).length then
             pruneKey { s with
               cache := setVal s.cache st.key (some (entryOf st))
               keys := s.keys ++ [st.key]
               staged := none } ((s.keys ++ [st.key]).headD ("")) s.current
           else { s with
             cache := setVal s.cache st.key (some (entryOf st))
             keys := s.keys ++ [st.key]
             staged := none }
       | none => { s with
           cache := setVal s.cache st.key (some (entryOf st))
           keys := s.keys ++ [st.key]
           staged := none }) := by
  unfold cacheVNode
  simp only [h]
  rfl

theorem cacheVNode_swf {s : KAState} (h : SWF s) : SWF (cacheVNode s) := by
  cases hst : s.staged with
  | none =>
      rw [cacheVNode_none hst]
      exact h
  | some st =>
      rw [cacheVNode_some_eq hst]
      have hadm := admit_swf h hst
      cases hmax : s.maxOpt with
      | none =>
          rw [hmax] at hadm
          simp only [hmax]
          exact hadm
      | some m =>
          rw [hmax] at hadm
          simp only [hmax]
          by_cases hc : 0 < m ∧ m < (s.keys ++ [st.key]).length
          · rw [if_pos hc]
            exact pruneKey_swf hadm _ _
          · rw [if_neg hc]
            exact hadm

theorem cacheVNode_dwf {s : KAState} (hs : SWF s) (h : DWF s) : DWF (cacheVNode s) := by
  cases hst : s.staged with
  | none =>
      rw [cacheVNode_none hst]
      exact h
  | some st =>
      rw [cacheVNode_some_eq hst]
      have hadm := admit_dwf h hst
      have hadms := admit_swf hs hst
      cases hmax : s.maxOpt with
      | none =>
          rw [hmax] at hadm
          simp only [hmax]
          exact hadm
      | some m =>
          rw [hmax] at hadm hadms
          simp only [hmax]
          by_cases hc : 0 < m ∧ m < (s.keys ++ [st.key]).length
          · rw [if_pos hc]
            exact pruneKey_dwf hadms hadm _ _
          · rw [if_neg hc]
            exact hadm

theorem renderStep_not_adm {s : KAState} {c : Candidate}
    (h : isAdmissible c.name s.includePat s.excludePat = false) :
    renderStep s c = (s, none) := by
  simp [renderStep, h]

theorem renderStep_hit {s : KAState} {c : Candidate} {e : CacheEntry}
    (ha : isAdmissible c.name s.includePat s.excludePat = true)
    (he : getLive s.cache c.key = some e) :
    renderStep s c =
      ({ s with keys := removeFirst s.keys c.key ++ [c.key] }, some e.componentInstance) := by
  simp [renderStep, lookupStep, ha, he]

theorem renderStep_miss {s : KAState} {c : Candidate}
    (ha : isAdmissible c.name s.includePat s.excludePat = true)
    (he : getLive s.cache c.key = none) :
    renderStep s c = ({ s with staged := some c }, none) := by
  simp [renderStep, lookupStep, ha, he]

theorem render_swf {s : KAState} (hw : SWF s) (c : Candidate) :
    SWF ((renderStep s c).1) := by
  by_cases ha : isAdmissible c.name s.includePat s.excludePat = true
  · cases he : getLive s.cache c.key with
    | some e =>
        rw [renderStep_hit ha he]
        have hkmem : c.key ∈ s.keys := hw.liveMem c.key e he
        refine ⟨?_, hw.cacheNodup, ?_, ?_, ?_⟩
        · rw [List.nodup_append]
          refine ⟨removeFirst_nodup hw.keysNodup _, List.nodup_singleton _, ?_⟩
          intro a hma hmb
          rw [List.mem_singleton] at hmb
          exact not_mem_removeFirst hw.keysNodup c.key (hmb ▸ hma)
        · intro k hk
          rcases List.mem_append.mp hk with hk | hk
          · exact hw.keysLive k (mem_of_mem_removeFirst hk)
          · rw [List.mem_singleton] at hk
            rw [hk, he]
            simp
        · intro k e2 he2
          by_cases hke : k = c.key
          · exact List.mem_append.mpr (Or.inr (by rw [List.mem_singleton, hke]))
          · exact List.mem_append.mpr
              (Or.inl (mem_removeFirst_of_ne hke (hw.liveMem k e2 he2)))
        · intro c2 hc2
          exact hw.stagedMiss c2 hc2
    | none =>
        rw [renderStep_miss ha he]
        refine ⟨hw.keysNodup, hw.cacheNodup, hw.keysLive, hw.liveMem, ?_⟩
        intro c2 hc2
        rw [Option.some_inj] at hc2
        rw [← hc2]
        exact he
  · rw [renderStep_not_adm (by simpa using ha)]
    exact hw

theorem render_dwf {s : KAState} (hd : DWF s) (c : Candidate)
    (hok : opOKb s (.render c) = true) : DWF ((renderStep s c).1) := by
  by_cases ha : isAdmissible c.name s.includePat s.excludePat = true
  · cases he : getLive s.cache c.key with
    | some e =>
        rw [renderStep_hit ha he]
        exact ⟨hd.liveNodup, hd.destNodup, hd.liveDest, hd.stagedFreshLive,
          hd.stagedFreshDest⟩
    | none =>
        rw [renderStep_miss ha he]
        have hfresh : c.inst ∉ liveInsts s.cache ∧ c.inst ∉ s.destroyed := by
          simp only [opOKb, ha, he, Option.isNone_none, Bool.and_true, Bool.true_and,
            Bool.not_true, Bool.false_or, Bool.and_eq_true, Bool.not_eq_true',
            decide_eq_false_iff_not] at hok
          exact hok
        refine ⟨hd.liveNodup, hd.destNodup, hd.liveDest, ?_, ?_⟩
        · intro c2 hc2
          rw [Option.some_inj] at hc2
          rw [← hc2]
          exact hfresh.1
        · intro c2 hc2
          rw [Option.some_inj] at hc2
          rw [← hc2]
          exact hfresh.2
  · rw [renderStep_not_adm (by simpa using ha)]
    exact hd

theorem pruneStepG_none {flt : String → Bool} {s : KAState} {k : String}
    (h : getLive s.cache k = none) : pruneStepG flt s k = s := by
  unfold pruneStepG
  rw [h]

theorem pruneStepG_noname {flt : String → Bool} {s : KAState} {k : String}
    {e : CacheEntry} (h : getLive s.cache k = some e) (hn : e.name = none) :
    pruneStepG flt s k = s := by
  unfold pruneStepG
  simp only [h, hn]

theorem pruneStepG_name {flt : String → Bool} {s : KAState} {k : String}
    {e : CacheEntry} {n : String} (h : getLive s.cache k = some e)
    (hn : e.name = some n) :
    pruneStepG flt s k =
      if n ≠ "" ∧ flt n = false then pruneKey s k s.current else s := by
  unfold pruneStepG
  simp only [h, hn]

theorem pruneStepG_swf {flt : String → Bool} {s : KAState} (k : String)
    (h : SWF s) : SWF (pruneStepG flt s k) := by
  cases hg : getLive s.cache k with
  | none =>
      rw [pruneStepG_none hg]
      exact h
  | some e =>
      cases hn : e.name with
      | none =>
          rw [pruneStepG_noname hg hn]
          exact h
      | some n =>
          rw [pruneStepG_name hg hn]
          by_cases hc : n ≠ "" ∧ flt n = false
          · rw [if_pos hc]
            exact pruneKey_swf h _ _
          · rw [if_neg hc]
            exact h

theorem pruneStepG_dwf {flt : String → Bool} {s : KAState} (k : String)
    (hs : SWF s) (h : DWF s) : DWF (pruneStepG flt s k) := by
  cases hg : getLive s.cache k with
  | none =>
      rw [pruneStepG_none hg]
      exact h
  | some e =>
      cases hn : e.name with
      | none =>
          rw [pruneStepG_noname hg hn]
          exact h
      | some n =>
          rw [pruneStepG_name hg hn]
          by_cases hc : n ≠ "" ∧ flt n = false
          · rw [if_pos hc]
            exact pruneKey_dwf hs h _ _
          · rw [if_neg hc]
            exact h

theorem foldl_swf {f : KAState → String → KAState}
    (hf : ∀ s k, SWF s → SWF (f s k)) :
    ∀ (l : List String) (s : KAState), SWF s → SWF (l.foldl f s) := by
  intro l
  induction l with
  | nil => intro s h; exact h
  | cons k rest ih => intro s h; exact ih _ (hf s k h)

theorem foldl_dwf {f : KAState → String → KAState}
    (hf : ∀ s k, SWF s → SWF (f s k))
    (hfd : ∀ s k, SWF s → DWF s → DWF (f s k)) :
    ∀ (l : List String) (s : KAState), SWF s → DWF s → DWF (l.foldl f s) := by
  intro l
  induction l with
  | nil => intro s _ h; exact h
  | cons k rest ih => intro s hs h; exact ih _ (hf s k hs) (hfd s k hs h)

theorem pruneCache_swf {s : KAState} {flt : String → Bool} (h : SWF s) :
    SWF (pruneCache s flt) :=
  foldl_swf (fun _ k h2 => pruneStepG_swf k h2) _ s h

theorem pruneCache_dwf {s : KAState} {flt : String → Bool} (hs : SWF s) (h : DWF s) :
    DWF (pruneCache s flt) :=
  foldl_dwf (fun _ k h2 => pruneStepG_swf k h2)
    (fun _ k h2 hd2 => pruneStepG_dwf k h2 hd2) _ s hs h

theorem destroyedHook_swf {s : KAState} (h : SWF s) : SWF (destroyedHook s) :=
  foldl_swf (fun _ k h2 => pruneKey_swf h2 k none) _ s h

theorem destroyedHook_dwf {s : KAState} (hs : SWF s) (h : DWF s) :
    DWF (destroyedHook s) :=
  foldl_dwf (fun _ k h2 => pruneKey_swf h2 k none)
    (fun _ k h2 hd2 => pruneKey_dwf h2 hd2 k none) _ s hs h

theorem setCurrent_swf {s : KAState} (h : SWF s) (v : Option VNode) :
    SWF { s with current := v } :=
  ⟨h.keysNodup, h.cacheNodup, h.keysLive, h.liveMem, h.stagedMiss⟩

theorem setPat_swf {s : KAState} (h : SWF s) (v1 v2 : Option KAPattern) :
    SWF { s with
          includePat := v1
          excludePat := v2 } :=
  ⟨h.keysNodup, h.cacheNodup, h.keysLive, h.liveMem, h.stagedMiss⟩

theorem step_swf {s : KAState} (h : SWF s) (op : Op) : SWF (step s op) := by
  cases op with
  | render c => exact render_swf h c
  | commit => exact cacheVNode_swf h
  | prune key => exact pruneKey_swf h key s.current
  | setInclude v =>
      exact pruneCache_swf ⟨h.keysNodup, h.cacheNodup, h.keysLive, h.liveMem, h.stagedMiss⟩
  | setExclude v =>
      exact pruneCache_swf ⟨h.keysNodup, h.cacheNodup, h.keysLive, h.liveMem, h.stagedMiss⟩
  | teardown => exact destroyedHook_swf h
  | setCurrent v => exact setCurrent_swf h v

theorem step_dwf {s : KAState} (hs : SWF s) (h : DWF s) (op : Op)
    (hok : opOKb s op = true) : DWF (step s op) := by
  cases op with
  | render c => exact render_dwf h c hok
  | commit => exact cacheVNode_dwf hs h
  | prune key => exact pruneKey_dwf hs h key s.current
  | setInclude v =>
      exact pruneCache_dwf ⟨hs.keysNodup, hs.cacheNodup, hs.keysLive, hs.liveMem, hs.stagedMiss⟩
        ⟨h.liveNodup, h.destNodup, h.liveDest, h.stagedFreshLive, h.stagedFreshDest⟩
  | setExclude v =>
      exact pruneCache_dwf ⟨hs.keysNodup, hs.cacheNodup, hs.keysLive, hs.liveMem, hs.stagedMiss⟩
        ⟨h.liveNodup, h.destNodup, h.liveDest, h.stagedFreshLive, h.stagedFreshDest⟩
  | teardown => exact destroyedHook_dwf hs h
  | setCurrent v =>
      exact ⟨h.liveNodup, h.destNodup, h.liveDest, h.stagedFreshLive, h.stagedFreshDest⟩

theorem runOps_swf {s : KAState} (h : SWF s) (ops : List Op) :
    SWF (runOps s ops) := by
  induction ops generalizing s with
  | nil => exact h
  | cons op rest ih => exact ih (step_swf h op)

theorem runOps_dwf {s : KAState} (hs : SWF s) (h : DWF s) {ops : List Op}
    (hv : validOps s ops = true) : DWF (runOps s ops) := by
  induction ops generalizing s with
  | nil => exact h
  | cons op rest ih =>
      rw [validOps, Bool.and_eq_true] at hv
      exact ih (step_swf hs op) (step_dwf hs h op hv.1) hv.2

theorem pruneKey_len (s : KAState) (key : String) (cur : Option VNode) :
    (pruneKey s key cur).keys.length ≤ s.keys.length := by
  rw [pruneKey_keys]
  exact length_removeFirst_le _ _

theorem pruneStepG_len (flt : String → Bool) (s : KAState) (k : String) :
    (pruneStepG flt s k).keys.length ≤ s.keys.length := by
  cases hg : getLive s.cache k with
  | none =>
      rw [pruneStepG_none hg]
  | some e =>
      cases hn : e.name with
      | none =>
          rw [pruneStepG_noname hg hn]
      | some n =>
          rw [pruneStepG_name hg hn]
          by_cases hc : n ≠ "" ∧ flt n = false
          · rw [if_pos hc]
            exact pruneKey_len _ _ _
          · rw [if_neg hc]

theorem foldl_len {f : KAState → String → KAState}
    (hf : ∀ s k, (f s k).keys.length ≤ s.keys.length) :
    ∀ (l : List String) (s : KAState), (l.foldl f s).keys.length ≤ s.keys.length := by
  intro l
  induction l with
  | nil => intro s; exact le_refl _
  | cons k rest ih => intro s; exact le_trans (ih (f s k)) (hf s k)

theorem renderStep_maxOpt (s : KAState) (c : Candidate) :
    ((renderStep s c).1).maxOpt = s.maxOpt := by
  unfold renderStep lookupStep
  split
  · split <;> rfl
  · rfl

theorem foldl_maxOpt {f : KAState → String → KAState}
    (hf : ∀ s k, (f s k).maxOpt = s.maxOpt) :
    ∀ (l : List String) (s : KAState), (l.foldl f s).maxOpt = s.maxOpt := by
  intro l
  induction l with
  | nil => intro s; rfl
  | cons k rest ih => intro s; rw [List.foldl_cons, ih, hf]

theorem pruneStepG_maxOpt (flt : String → Bool) (s : KAState) (k : String) :
    (pruneStepG flt s k).maxOpt = s.maxOpt := by
  unfold pruneStepG
  split
  · split
    · split <;> rfl
    · rfl
  · rfl

theorem cacheVNode_maxOpt (s : KAState) : (cacheVNode s).maxOpt = s.maxOpt := by
  cases hst : s.staged with
  | none => rw [cacheVNode_none hst]
  | some st =>
      rw [cacheVNode_some_eq hst]
      cases hmax : s.maxOpt with
      | none => simp only [hmax]
      | some m =>
          simp only [hmax]
          by_cases hc : 0 < m ∧ m < (s.keys ++ [st.key]).length
          · rw [if_pos hc, pruneKey_maxOpt]
          · rw [if_neg hc]

theorem step_maxOpt (s : KAState) (op : Op) : (step s op).maxOpt = s.maxOpt := by
  cases op with
  | render c => exact renderStep_maxOpt s c
  | commit => exact cacheVNode_maxOpt s
  | prune key => rfl
  | setInclude v => exact foldl_maxOpt (fun s2 k => pruneStepG_maxOpt _ s2 k) _ _
  | setExclude v => exact foldl_maxOpt (fun s2 k => pruneStepG_maxOpt _ s2 k) _ _
  | teardown => exact foldl_maxOpt (fun s2 k => pruneKey_maxOpt s2 k none) _ _
  | setCurrent v => rfl

theorem step_len {s : KAState} {m : Nat} (hs : SWF s) (hm : s.maxOpt = some m)
    (hp : 1 ≤ m) (hlen : s.keys.length ≤ m) (op : Op) :
    (step s op).keys.length ≤ m := by
  cases op with
  | render c =>
      show ((renderStep s c).1).keys.length ≤ m
      by_cases ha : isAdmissible c.name s.includePat s.excludePat = true
      · cases he : getLive s.cache c.key with
        | some e =>
            rw [renderStep_hit ha he]
            show (removeFirst s.keys c.key ++ [c.key]).length ≤ m
            have hmem : c.key ∈ s.keys := hs.liveMem c.key e he
            have hpos : 0 < s.keys.length := List.length_pos_of_mem hmem
            rw [List.length_append, length_removeFirst_of_mem hmem]
            simp only [List.length_singleton]
            omega
        | none =>
            rw [renderStep_miss ha he]
            exact hlen
      · rw [renderStep_not_adm (by simpa using ha)]
        exact hlen
  | commit =>
      show (cacheVNode s).keys.length ≤ m
      cases hst : s.staged with
      | none =>
          rw [cacheVNode_none hst]
          exact hlen
      | some st =>
          rw [cacheVNode_some_eq hst]
          simp only [hm]
          by_cases hc : 0 < m ∧ m < (s.keys ++ [st.key]).length
          · rw [if_pos hc]
            rw [pruneKey_keys]
            have hne : s.keys ++ [st.key] ≠ [] := by simp
            have hmem : (s.keys ++ [st.key]).headD ("") ∈ s.keys ++ [st.key] := by
              cases hk : s.keys ++ [st.key] with
              | nil => exact absurd hk hne
              | cons a l => simp
            rw [length_removeFirst_of_mem hmem]
            simp only [List.length_append, List.length_singleton] at hc ⊢
            omega
          · rw [if_neg hc]
            simp only [List.length_append, List.length_singleton] at hc ⊢
            omega
  | prune key => exact le_trans (pruneKey_len s key s.current) hlen
  | setInclude v =>
      exact le_trans (foldl_len (fun s2 k => pruneStepG_len _ s2 k) _ _) hlen
  | setExclude v =>
      exact le_trans (foldl_len (fun s2 k => pruneStepG_len _ s2 k) _ _) hlen
  | teardown =>
      exact le_trans (foldl_len (fun s2 k => pruneKey_len s2 k none) _ _) hlen
  | setCurrent v => exact hlen

theorem runOps_len {s : KAState} {m : Nat} (hs : SWF s) (hm : s.maxOpt = some m)
    (hp : 1 ≤ m) (hlen : s.keys.length ≤ m) (ops : List Op) :
    (runOps s ops).keys.length ≤ m := by
  induction ops generalizing s with
  | nil => exact hlen
  | cons op rest ih =>
      exact ih (step_swf hs op) (by rw [step_maxOpt]; exact hm)
        (step_len hs hm hp hlen op)

theorem initState_swf (maxOpt : Option Nat) (cur : Option VNode)
    (inc exc : Option KAPattern) : SWF (initState maxOpt cur inc exc) := by
  refine ⟨List.nodup_nil, List.nodup_nil, ?_, ?_, ?_⟩
  · intro k hk
    exact absurd hk (List.not_mem_nil k)
  · intro k e he
    exact absurd he (by simp [initState, getLive, getEnt])
  · intro c hc
    exact absurd hc (by simp [initState])

theorem getLive_of_getEnt_none {c : CacheMap} {k : String}
    (h : getEnt c k = some none) : getLive c k = none := by
  unfold getLive
  rw [h]

theorem destroyFold_getLive (l : List String) :
    ∀ (s : KAState) (k : String),
      getLive ((l.foldl (fun acc k2 => pruneKey acc k2 none) s).cache) k =
        if k ∈ l then none else getLive s.cache k := by
  induction l with
  | nil =>
      intro s k
      simp
  | cons k0 rest ih =>
      intro s k
      rw [List.foldl_cons, ih (pruneKey s k0 none) k]
      by_cases hk : k ∈ rest
      · rw [if_pos hk, if_pos (List.mem_cons.mpr (Or.inr hk))]
      · rw [if_neg hk, pruneKey_getLive]
        by_cases hk0 : k0 = k
        · rw [if_pos hk0, if_pos (List.mem_cons.mpr (Or.inl hk0.symm))]
        · rw [if_neg hk0, if_neg (by
            intro hmem
            rcases List.mem_cons.mp hmem with h | h
            · exact hk0 h.symm
            · exact hk h)]

theorem destroyFold_keys (l : List String) :
    ∀ (s : KAState),
      (l.foldl (fun acc k2 => pruneKey acc k2 none) s).keys =
        List.foldl removeFirst s.keys l := by
  induction l with
  | nil => intro s; rfl
  | cons k0 rest ih =>
      intro s
      rw [List.foldl_cons, List.foldl_cons, ih, pruneKey_keys]

theorem foldl_removeFirst_filter (l : List String) :
    ∀ (ks : List String), ks.Nodup →
      List.foldl removeFirst ks l = ks.filter (fun k => !(decide (k ∈ l))) := by
  induction l with
  | nil =>
      intro ks h
      simp
  | cons k0 rest ih =>
      intro ks h
      rw [List.foldl_cons, removeFirst_eq_filter h, ih _ (h.filter _),
        List.filter_filter]
      apply List.filter_congr
      intro a ha
      by_cases h0 : a = k0 <;> by_cases hr : a ∈ rest <;> simp [h0, hr]

theorem destroyFold_dest_mono (l : List String) :
    ∀ (s : KAState) (i : Nat), i ∈ s.destroyed →
      i ∈ (l.foldl (fun acc k2 => pruneKey acc k2 none) s).destroyed := by
  induction l with
  | nil => intro s i h; exact h
  | cons k0 rest ih =>
      intro s i h
      rw [List.foldl_cons]
      refine ih _ i ?_
      rw [pruneKey_destroyed]
      exact List.mem_append.mpr (Or.inl h)

theorem destroyFold_dest_complete (l : List String) :
    ∀ (s : KAState) (k : String) (e : CacheEntry), k ∈ l →
      getLive s.cache k = some e →
      e.componentInstance ∈ (l.foldl (fun acc k2 => pruneKey acc k2 none) s).destroyed := by
  induction l with
  | nil => intro s k e h _; exact absurd h (List.not_mem_nil k)
  | cons k0 rest ih =>
      intro s k e hmem he
      rw [List.foldl_cons]
      by_cases hk : k0 = k
      · subst hk
        refine destroyFold_dest_mono rest _ _ ?_
        rw [pruneKey_destroyed, destroyEvents_live_none he]
        exact List.mem_append.mpr (Or.inr (by simp))
      · rcases List.mem_cons.mp hmem with h | h
        · exact absurd h.symm hk
        · refine ih _ k e h ?_
          rw [pruneKey_getLive, if_neg hk]
          exact he

theorem pruneKey_id {s : KAState} {k : String}
    (hv : getEnt s.cache k = some none) (hkeys : s.keys = []) :
    pruneKey s k none = s := by
  obtain ⟨c, ks, mo, cur, ip, ep, st, d⟩ := s
  simp only at hv hkeys
  subst hkeys
  unfold pruneKey pruneCacheEntry
  simp only
  rw [destroyEvents_none (getLive_of_getEnt_none hv), setVal_self hv]
  simp [removeFirst]

theorem destroyFold_fix {s : KAState}
    (hall : ∀ p, p ∈ s.cache → p.2 = none) (hkeys : s.keys = []) :
    ∀ (l : List String), (∀ k, k ∈ l → k ∈ cacheKeys s.cache) →
      l.foldl (fun acc k2 => pruneKey acc k2 none) s = s := by
  intro l
  induction l with
  | nil => intro _; rfl
  | cons k0 rest ih =>
      intro hsub
      rw [List.foldl_cons]
      have hk0 : k0 ∈ cacheKeys s.cache := hsub k0 (List.mem_cons_self _ _)
      have hent : ∃ v, getEnt s.cache k0 = some v := by
        cases hg : getEnt s.cache k0 with
        | none => exact absurd hk0 (getEnt_eq_none_iff.mp hg)
        | some v => exact ⟨v, rfl⟩
      obtain ⟨v, hv⟩ := hent
      have hvnone : v = none := hall (k0, v) (getEnt_mem hv)
      rw [pruneKey_id (hvnone ▸ hv) hkeys]
      exact ih (fun k hk => hsub k (List.mem_cons_of_mem _ hk))

theorem all_none_of_getLive {c : CacheMap} (hn : (cacheKeys c).Nodup)
    (h : ∀ k, getLive c k = none) : ∀ p, p ∈ c → p.2 = none := by
  induction c with
  | nil => intro p hp; exact absurd hp (List.not_mem_nil p)
  | cons q rest ih =>
      obtain ⟨k0, v0⟩ := q
      rw [cacheKeys_cons, List.nodup_cons] at hn
      intro p hp
      rcases List.mem_cons.mp hp with hp | hp
      · have hv := h k0
        rw [getLive_cons_self] at hv
        rw [hp, hv]
      · refine ih hn.2 ?_ p hp
        intro k
        by_cases hk : k0 = k
        · subst hk
          unfold getLive
          rw [getEnt_eq_none_iff.mpr hn.1]
        · have hv := h k
          rwa [getLive_cons_ne hk] at hv

theorem prunedBy_congr {s1 s2 : KAState} {flt : String → Bool} {k : String}
    (h : getLive s1.cache k = getLive s2.cache k) :
    prunedBy s1 flt k = prunedBy s2 flt k := by
  unfold prunedBy
  rw [h]

theorem nameFails_some {flt : String → Bool} {e : CacheEntry} {n : String}
    (hn : e.name = some n) : nameFails flt e = (decide (n ≠ "") && !flt n) := by
  unfold nameFails
  rw [hn]

theorem nameFails_none {flt : String → Bool} {e : CacheEntry}
    (hn : e.name = none) : nameFails flt e = false := by
  unfold nameFails
  rw [hn]

theorem prunedBy_some {flt : String → Bool} {s : KAState} {k0 : String}
    {e : CacheEntry} (hg : getLive s.cache k0 = some e) :
    prunedBy s flt k0 = nameFails flt e := by
  unfold prunedBy
  rw [hg]

theorem pruneStepG_unpruned {flt : String → Bool} {s : KAState} {k0 : String}
    (h : prunedBy s flt k0 = false) : pruneStepG flt s k0 = s := by
  cases hg : getLive s.cache k0 with
  | none => exact pruneStepG_none hg
  | some e =>
      rw [prunedBy_some hg] at h
      cases hn : e.name with
      | none => exact pruneStepG_noname hg hn
      | some n =>
          rw [pruneStepG_name hg hn, if_neg]
          intro hc
          rw [nameFails_some hn] at h
          simp only [Bool.and_eq_false_iff, decide_eq_false_iff_not, not_not,
            Bool.not_eq_false] at h
          rcases h with h | h
          · exact hc.1 h
          · rw [hc.2] at h
            exact Bool.noConfusion h

theorem pruneStepG_pruned {flt : String → Bool} {s : KAState} {k0 : String}
    (h : prunedBy s flt k0 = true) :
    pruneStepG flt s k0 = pruneKey s k0 s.current := by
  cases hg : getLive s.cache k0 with
  | none =>
      unfold prunedBy at h
      rw [hg] at h
      exact Bool.noConfusion h
  | some e =>
      rw [prunedBy_some hg] at h
      cases hn : e.name with
      | none =>
          rw [nameFails_none hn] at h
          exact Bool.noConfusion h
      | some n =>
          rw [pruneStepG_name hg hn, if_pos]
          rw [nameFails_some hn] at h
          simp only [Bool.and_eq_true, decide_eq_true_eq, Bool.not_eq_true'] at h
          exact h

theorem pruneFold_getLive (flt : String → Bool) (l : List String) :
    ∀ (s : KAState), l.Nodup → ∀ k,
      getLive ((l.foldl (pruneStepG flt) s).cache) k =
        if k ∈ l ∧ prunedBy s flt k = true then none else getLive s.cache k := by
  induction l with
  | nil =>
      intro s _ k
      simp
  | cons k0 rest ih =>
      intro s hnd k
      rw [List.nodup_cons] at hnd
      rw [List.foldl_cons]
      by_cases hp : prunedBy s flt k0 = true
      · rw [pruneStepG_pruned hp, ih _ hnd.2 k]
        by_cases hk0 : k0 = k
        · subst hk0
          rw [if_neg (fun hc => hnd.1 hc.1), pruneKey_getLive, if_pos rfl,
            if_pos ⟨List.mem_cons_self _ _, hp⟩]
        · have hcongr : prunedBy (pruneKey s k0 s.current) flt k = prunedBy s flt k :=
            prunedBy_congr (by rw [pruneKey_getLive, if_neg hk0])
          rw [hcongr, pruneKey_getLive, if_neg hk0]
          by_cases hkr : k ∈ rest ∧ prunedBy s flt k = true
          · rw [if_pos hkr, if_pos ⟨List.mem_cons.mpr (Or.inr hkr.1), hkr.2⟩]
          · rw [if_neg hkr, if_neg (by
              intro hc
              rcases List.mem_cons.mp hc.1 with h | h
              · exact hk0 h.symm
              · exact hkr ⟨h, hc.2⟩)]
      · have hp2 : prunedBy s flt k0 = false := Bool.eq_false_iff.mpr hp
        rw [pruneStepG_unpruned hp2, ih _ hnd.2 k]
        by_cases hk0 : k0 = k
        · subst hk0
          rw [if_neg (fun hc => hnd.1 hc.1), if_neg (fun hc => hp hc.2)]
        · by_cases hkr : k ∈ rest ∧ prunedBy s flt k = true
          · rw [if_pos hkr, if_pos ⟨List.mem_cons.mpr (Or.inr hkr.1), hkr.2⟩]
          · rw [if_neg hkr, if_neg (by
              intro hc
              rcases List.mem_cons.mp hc.1 with h | h
              · exact hk0 h.symm
              · exact hkr ⟨h, hc.2⟩)]

theorem pruneFold_keys (flt : String → Bool) (l : List String) :
    ∀ (s : KAState), l.Nodup → s.keys.Nodup →
      (l.foldl (pruneStepG flt) s).keys =
        s.keys.filter (fun k => !((decide (k ∈ l)) && prunedBy s flt k)) := by
  induction l with
  | nil =>
      intro s _ _
      simp
  | cons k0 rest ih =>
      intro s hnd hks
      rw [List.nodup_cons] at hnd
      rw [List.foldl_cons]
      by_cases hp : prunedBy s flt k0 = true
      · rw [pruneStepG_pruned hp,
          ih _ hnd.2 (by rw [pruneKey_keys]; exact removeFirst_nodup hks _)]
        rw [pruneKey_keys, removeFirst_eq_filter hks, List.filter_filter]
        apply List.filter_congr
        intro a ha
        by_cases h0 : a = k0
        · subst h0
          simp [hp]
        · have hcongr : prunedBy (pruneKey s k0 s.current) flt a = prunedBy s flt a :=
            prunedBy_congr (by rw [pruneKey_getLive, if_neg (fun hh => h0 hh.symm)])
          rw [hcongr]
          by_cases hr : a ∈ rest <;> by_cases hb : prunedBy s flt a = true <;>
            simp [h0, hr, hb]
      · have hp2 : prunedBy s flt k0 = false := Bool.eq_false_iff.mpr hp
        rw [pruneStepG_unpruned hp2, ih _ hnd.2 hks]
        apply List.filter_congr
        intro a ha
        by_cases h0 : a = k0
        · subst h0
          simp [hp2, hnd.1]
        · by_cases hr : a ∈ rest <;> simp [h0, hr]

theorem shrinks_refl (s : KAState) : Shrinks s s :=
  ⟨fun _ => Or.inl rfl, fun _ h => h⟩

theorem shrinks_trans {s t u : KAState} (h1 : Shrinks s t) (h2 : Shrinks t u) :
    Shrinks s u := by
  constructor
  · intro k
    rcases h2.1 k with h | h
    · rw [h]
      exact h1.1 k
    · exact Or.inr h
  · intro k hk
    exact h1.2 k (h2.2 k hk)

theorem pruneKey_shrinks (s : KAState) (key : String) (cur : Option VNode) :
    Shrinks s (pruneKey s key cur) := by
  constructor
  · intro k
    rw [pruneKey_getLive]
    by_cases h : key = k
    · rw [if_pos h]
      exact Or.inr rfl
    · rw [if_neg h]
      exact Or.inl rfl
  · intro k hk
    rw [pruneKey_keys] at hk
    exact mem_of_mem_removeFirst hk

theorem foldl_shrinks {f : KAState → String → KAState}
    (hf : ∀ s k, Shrinks s (f s k)) :
    ∀ (l : List String) (s : KAState), Shrinks s (l.foldl f s) := by
  intro l
  induction l with
  | nil => intro s; exact shrinks_refl s
  | cons k rest ih => intro s; exact shrinks_trans (hf s k) (ih (f s k))

theorem pruneStepG_shrinks (flt : String → Bool) (s : KAState) (k : String) :
    Shrinks s (pruneStepG flt s k) := by
  by_cases hp : prunedBy s flt k = true
  · rw [pruneStepG_pruned hp]
    exact pruneKey_shrinks _ _ _
  · rw [pruneStepG_unpruned (Bool.eq_false_iff.mpr hp)]
    exact shrinks_refl s

theorem step_shrinks {s : KAState} (hs : SWF s) (op : Op)
    (h : noCommitB op = true) : Shrinks s (step s op) := by
  cases op with
  | render c =>
      show Shrinks s ((renderStep s c).1)
      by_cases ha : isAdmissible c.name s.includePat s.excludePat = true
      · cases he : getLive s.cache c.key with
        | some e =>
            rw [renderStep_hit ha he]
            constructor
            · intro k
              exact Or.inl rfl
            · intro k hk
              rcases List.mem_append.mp hk with hk | hk
              · exact mem_of_mem_removeFirst hk
              · rw [List.mem_singleton] at hk
                rw [hk]
                exact hs.liveMem c.key e he
        | none =>
            rw [renderStep_miss ha he]
            exact ⟨fun _ => Or.inl rfl, fun _ hk => hk⟩
      · rw [renderStep_not_adm (by simpa using ha)]
        exact shrinks_refl s
  | commit => exact absurd h (by simp [noCommitB])
  | prune key => exact pruneKey_shrinks s key s.current
  | setInclude v =>
      exact shrinks_trans (⟨fun _ => Or.inl rfl, fun _ hk => hk⟩ :
        Shrinks s { s with includePat := v })
        (foldl_shrinks (fun s2 k => pruneStepG_shrinks _ s2 k) _ _)
  | setExclude v =>
      exact shrinks_trans (⟨fun _ => Or.inl rfl, fun _ hk => hk⟩ :
        Shrinks s { s with excludePat := v })
        (foldl_shrinks (fun s2 k => pruneStepG_shrinks _ s2 k) _ _)
  | teardown =>
      exact foldl_shrinks (fun s2 k => pruneKey_shrinks s2 k none) _ _
  | setCurrent v => exact ⟨fun _ => Or.inl rfl, fun _ hk => hk⟩

theorem runOps_shrinks {s : KAState} (hs : SWF s) {ops : List Op}
    (h : ops.all noCommitB = true) : Shrinks s (runOps s ops) := by
  induction ops generalizing s with
  | nil => exact shrinks_refl s
  | cons op rest ih =>
      rw [List.all_cons, Bool.and_eq_true] at h
      exact shrinks_trans (step_shrinks hs op h.1) (ih (step_swf hs op) h.2)

theorem headD_mem {l : List String} (h : l ≠ []) (d : String) : l.headD d ∈ l := by
  cases l with
  | nil => exact absurd rfl h
  | cons a rest => simp

theorem headD_append {l1 l2 : List String} (h : l1 ≠ []) (d : String) :
    (l1 ++ l2).headD d = l1.headD d := by
  cases l1 with
  | nil => exact absurd rfl h
  | cons a rest => rfl

theorem lookupStep_hit {s : KAState} {c : Candidate} {e : CacheEntry}
    (he : getLive s.cache c.key = some e) :
    lookupStep s c =
      ({ s with keys := removeFirst s.keys c.key ++ [c.key] },
        some e.componentInstance) := by
  simp [lookupStep, he]

theorem lookupStep_miss {s : KAState} {c : Candidate}
    (he : getLive s.cache c.key = none) :
    lookupStep s c = ({ s with staged := some c }, none) := by
  simp [lookupStep, he]

theorem commitCand_noevict {s : KAState} (c : Candidate) {m : Nat}
    (hm : s.maxOpt = some m) (hlen : s.keys.length + 1 ≤ m) :
    commitCand s c = { s with
      cache := setVal s.cache c.key (some (entryOf c))
      keys := s.keys ++ [c.key]
      staged := none } := by
  unfold commitCand cacheVNode
  simp only [hm]
  rw [if_neg]
  · rfl
  · intro hc
    simp only [List.length_append, List.length_singleton] at hc
    omega

theorem commitCand_evict {s : KAState} (c : Candidate) {m : Nat}
    (hm : s.maxOpt = some m) (hpos : 0 < m) (hlen : m < s.keys.length + 1) :
    commitCand s c = pruneKey { s with
      cache := setVal s.cache c.key (some (entryOf c))
      keys := s.keys ++ [c.key]
      staged := none } ((s.keys ++ [c.key]).headD ("")) s.current := by
  unfold commitCand cacheVNode
  simp only [hm]
  rw [if_pos]
  · rfl
  · constructor
    · exact hpos
    · simp only [List.length_append, List.length_singleton]
      omega

theorem commitCand_maxOpt (s : KAState) (c : Candidate) :
    (commitCand s c).maxOpt = s.maxOpt := by
  unfold commitCand
  rw [cacheVNode_maxOpt]

theorem commitAll_noevict {m : Nat} :
    ∀ (cs : List Candidate) (s : KAState), s.maxOpt = some m →
      s.keys.length + cs.length ≤ m →
      (commitAll s cs).cache = setAll s.cache cs ∧
      (commitAll s cs).keys = s.keys ++ cs.map Candidate.key ∧
      (commitAll s cs).destroyed = s.destroyed ∧
      (commitAll s cs).maxOpt = s.maxOpt ∧
      (commitAll s cs).current = s.current := by
  intro cs
  induction cs with
  | nil =>
      intro s hm hlen
      exact ⟨rfl, by simp [commitAll], rfl, rfl, rfl⟩
  | cons c rest ih =>
      intro s hm hlen
      have hfold : commitAll s (c :: rest) = commitAll (commitCand s c) rest := by
        unfold commitAll
        rw [List.foldl_cons]
      have hstep := commitCand_noevict c hm (by
        simp only [List.length_cons] at hlen
        omega)
      have hm2 : (commitCand s c).maxOpt = some m := by
        rw [commitCand_maxOpt]
        exact hm
      have hlen2 : (commitCand s c).keys.length + rest.length ≤ m := by
        rw [hstep]
        simp only [List.length_append, List.length_singleton]
        simp only [List.length_cons] at hlen
        omega
      obtain ⟨ih1, ih2, ih3, ih4, ih5⟩ := ih (commitCand s c) hm2 hlen2
      rw [hfold]
      refine ⟨?_, ?_, ?_, ?_, ?_⟩
      · rw [ih1, hstep]
        show setAll (setVal s.cache c.key (some (entryOf c))) rest =
          setAll s.cache (c :: rest)
        unfold setAll
        rw [List.foldl_cons]
      · rw [ih2, hstep]
        simp
      · rw [ih3, hstep]
      · rw [ih4, commitCand_maxOpt]
      · rw [ih5, hstep]

theorem setAll_getLive_of_not_mem :
    ∀ (cs : List Candidate) (c0 : CacheMap) (k : String),
      k ∉ cs.map Candidate.key → getLive (setAll c0 cs) k = getLive c0 k := by
  intro cs
  induction cs with
  | nil => intro c0 k _; rfl
  | cons c rest ih =>
      intro c0 k hk
      simp only [List.map_cons, List.mem_cons, not_or] at hk
      have hunf : setAll c0 (c :: rest) =
          setAll (setVal c0 c.key (some (entryOf c))) rest := by
        unfold setAll
        rw [List.foldl_cons]
      rw [hunf, ih _ k hk.2, getLive_setVal, if_neg (fun h => hk.1 h.symm)]

theorem setAll_getLive_mem :
    ∀ (cs : List Candidate) (c0 : CacheMap) (c : Candidate),
      c ∈ cs → (cs.map Candidate.key).Nodup →
      getLive (setAll c0 cs) c.key = some (entryOf c) := by
  intro cs
  induction cs with
  | nil => intro c0 c h _; exact absurd h (List.not_mem_nil c)
  | cons c1 rest ih =>
      intro c0 c hmem hnd
      simp only [List.map_cons, List.nodup_cons] at hnd
      have hunf : setAll c0 (c1 :: rest) =
          setAll (setVal c0 c1.key (some (entryOf c1))) rest := by
        unfold setAll
        rw [List.foldl_cons]
      rw [hunf]
      rcases List.mem_cons.mp hmem with h | h
      · subst h
        rw [setAll_getLive_of_not_mem rest _ _ hnd.1, getLive_setVal, if_pos rfl]
      · exact ih _ c h hnd.2

theorem nameFails_include (v : Option KAPattern) (e : CacheEntry) :
    nameFails (fun n => matchesV v n) e = failsInc v e := by
  obtain ⟨nm, tg, ins⟩ := e
  cases nm <;> rfl

theorem nameFails_exclude (v : Option KAPattern) (e : CacheEntry) :
    nameFails (fun n => !matchesV v n) e = failsExc v e := by
  obtain ⟨nm, tg, ins⟩ := e
  cases nm with
  | none => rfl
  | some n => simp [nameFails, failsExc, Bool.not_not]

theorem pruneCache_getLive_char (s : KAState) (flt : String → Bool)
    (hc : (cacheKeys s.cache).Nodup) (k : String) :
    getLive (pruneCache s flt).cache k =
      if prunedBy s flt k = true then none else getLive s.cache k := by
  unfold pruneCache
  rw [pruneFold_getLive flt _ s hc k]
  by_cases hk : prunedBy s flt k = true
  · rw [if_pos hk]
    have hmem : k ∈ cacheKeys s.cache := by
      unfold prunedBy at hk
      cases hg : getLive s.cache k with
      | none =>
          rw [hg] at hk
          exact absurd hk (by simp)
      | some e => exact mem_cacheKeys_of_getLive hg
    rw [if_pos ⟨hmem, hk⟩]
  · rw [if_neg hk, if_neg (fun hc2 => hk hc2.2)]

theorem pruneCache_keys_char (s : KAState) (flt : String → Bool)
    (hc : (cacheKeys s.cache).Nodup) (hk : s.keys.Nodup) :
    (pruneCache s flt).keys = s.keys.filter (fun k2 => !prunedBy s flt k2) := by
  unfold pruneCache
  rw [pruneFold_keys flt _ s hc hk]
  apply List.filter_congr
  intro a _
  by_cases hp : prunedBy s flt a = true
  · have hmem : a ∈ cacheKeys s.cache := by
      unfold prunedBy at hp
      cases hg : getLive s.cache a with
      | none =>
          rw [hg] at hp
          exact absurd hp (by simp)
      | some e => exact mem_cacheKeys_of_getLive hg
    simp [hp, hmem]
  · have hp2 : prunedBy s flt a = false := Bool.eq_false_iff.mpr hp
    simp [hp2]

theorem prunedBy_include (s : KAState) (v : Option KAPattern) (k : String) :
    prunedBy { s with includePat := v } (fun n => matchesV v n) k =
      prunedEntry s (failsInc v) k := by
  show (match getLive s.cache k with
        | some e => nameFails (fun n => matchesV v n) e
        | none => false) =
    (match getLive s.cache k with
     | some e => failsInc v e
     | none => false)
  cases hg : getLive s.cache k with
  | none => simp only [hg]
  | some e =>
      simp only [hg]
      exact nameFails_include v e

theorem prunedBy_exclude (s : KAState) (v : Option KAPattern) (k : String) :
    prunedBy { s with excludePat := v } (fun n => !matchesV v n) k =
      prunedEntry s (failsExc v) k := by
  show (match getLive s.cache k with
        | some e => nameFails (fun n => !matchesV v n) e
        | none => false) =
    (match getLive s.cache k with
     | some e => failsExc v e
     | none => false)
  cases hg : getLive s.cache k with
  | none => simp only [hg]
  | some e =>
      simp only [hg]
      exact nameFails_exclude v e

theorem setInclude_getLive (s : KAState) (v : Option KAPattern)
    (hc : (cacheKeys s.cache).Nodup) (k : String) :
    getLive (setInclude s v).cache k =
      if prunedEntry s (failsInc v) k = true then none else getLive s.cache k := by
  unfold setInclude
  rw [pruneCache_getLive_char { s with includePat := v } _ (by exact hc) k,
    prunedBy_include]

theorem setExclude_getLive (s : KAState) (v : Option KAPattern)
    (hc : (cacheKeys s.cache).Nodup) (k : String) :
    getLive (setExclude s v).cache k =
      if prunedEntry s (failsExc v) k = true then none else getLive s.cache k := by
  unfold setExclude
  rw [pruneCache_getLive_char { s with excludePat := v } _ (by exact hc) k,
    prunedBy_exclude]

theorem setInclude_keys (s : KAState) (v : Option KAPattern)
    (hc : (cacheKeys s.cache).Nodup) (hk : s.keys.Nodup) :
    (setInclude s v).keys =
      s.keys.filter (fun k2 => !prunedEntry s (failsInc v) k2) := by
  unfold setInclude
  rw [pruneCache_keys_char { s with includePat := v } _ (by exact hc) (by exact hk)]
  apply List.filter_congr
  intro a _
  rw [prunedBy_include]

theorem setExclude_keys (s : KAState) (v : Option KAPattern)
    (hc : (cacheKeys s.cache).Nodup) (hk : s.keys.Nodup) :
    (setExclude s v).keys =
      s.keys.filter (fun k2 => !prunedEntry s (failsExc v) k2) := by
  unfold setExclude
  rw [pruneCache_keys_char { s with excludePat := v } _ (by exact hc) (by exact hk)]
  apply List.filter_congr
  intro a _
  rw [prunedBy_exclude]

theorem initState_dwf (maxOpt : Option Nat) (cur : Option VNode)
    (inc exc : Option KAPattern) : DWF (initState maxOpt cur inc exc) := by
  refine ⟨List.nodup_nil, List.nodup_nil, ?_, ?_, ?_⟩
  · intro k e he
    exact absurd he (by simp [initState, getLive, getEnt])
  · intro c hc
    exact absurd hc (by simp [initState])
  · intro c hc
    exact absurd hc (by simp [initState])

theorem removeFirst_cons_self (k : String) (l : List String) :
    removeFirst (k :: l) k = l := by
  unfold removeFirst
  rw [if_pos rfl]

/-- C1: for every sequence of store operations on a component configured
with a positive integer capacity `m` — in particular every sequence of
stageCandidate (`render` miss) and commit (`cacheVNode`) calls — the
recency order `keys` has length at most `m` after every step, hence after
every commit: the check `keys.length > parseInt(this.max)` followed by a
single head eviction in `cacheVNode` restores the bound. -/
theorem c1_capacity_bound (m : Nat) (cur : Option VNode)
    (inc exc : Option KAPattern) (ops : List Op) (hm : 1 ≤ m) :
    (runOps (initState (some m) cur inc exc) ops).keys.length ≤ m :=
  runOps_len (initState_swf (some m) cur inc exc) rfl hm (Nat.zero_le m) ops

/-- C1 witness: capacity 1, two distinct keys rendered and committed. -/
theorem c1_capacity_bound_witness :
    1 ≤ 1 ∧
    (runOps (initState (some 1) none none none)
      [Op.render ⟨("a"), none, none, 1⟩, Op.commit,
       Op.render ⟨("b"), none, none, 2⟩, Op.commit]).keys.length ≤ 1 :=
  ⟨by decide, c1_capacity_bound 1 none none none
    [Op.render ⟨("a"), none, none, 1⟩, Op.commit,
     Op.render ⟨("b"), none, none, 2⟩, Op.commit] (by decide)⟩

/-- C2: across every host-valid sequence of render/lookup, stage, commit,
prune, include/exclude reevaluation and teardown operations (validity: a
render pass that stages a candidate hands over a fresh instance, matching
the spec's ownership transfer at commit), every instance's `$destroy` is
invoked at most once — the destroy log is duplicate-free — and no
destroyed instance is still live in `cache`/`keys`: destruction happens
only in the step that removes the entry, never while it is still stored. -/
theorem c2_destroy_once (maxOpt : Option Nat) (cur : Option VNode)
    (inc exc : Option KAPattern) (ops : List Op)
    (hv : validOps (initState maxOpt cur inc exc) ops = true) :
    (runOps (initState maxOpt cur inc exc) ops).destroyed.Nodup ∧
    (∀ k e, getLive (runOps (initState maxOpt cur inc exc) ops).cache k = some e →
      e.componentInstance ∉ (runOps (initState maxOpt cur inc exc) ops).destroyed) := by
  have hd := runOps_dwf (initState_swf maxOpt cur inc exc)
    (initState_dwf maxOpt cur inc exc) hv
  exact ⟨hd.destNodup, hd.liveDest⟩

/-- C2 witness: a trace that caches, prunes (destroying once), re-renders
and commits a fresh instance under the same key. -/
theorem c2_destroy_once_witness :
    validOps (initState none (some ⟨some ("t")⟩) none none)
      [Op.render ⟨("a"), none, none, 1⟩, Op.commit, Op.prune ("a"),
       Op.render ⟨("a"), none, none, 2⟩, Op.commit, Op.teardown] = true ∧
    ((runOps (initState none (some ⟨some ("t")⟩) none none)
      [Op.render ⟨("a"), none, none, 1⟩, Op.commit, Op.prune ("a"),
       Op.render ⟨("a"), none, none, 2⟩, Op.commit, Op.teardown]).destroyed.Nodup ∧
     (∀ k e, getLive (runOps (initState none (some ⟨some ("t")⟩) none none)
        [Op.render ⟨("a"), none, none, 1⟩, Op.commit, Op.prune ("a"),
         Op.render ⟨("a"), none, none, 2⟩, Op.commit, Op.teardown]).cache k = some e →
       e.componentInstance ∉ (runOps (initState none (some ⟨some ("t")⟩) none none)
        [Op.render ⟨("a"), none, none, 1⟩, Op.commit, Op.prune ("a"),
         Op.render ⟨("a"), none, none, 2⟩, Op.commit, Op.teardown]).destroyed)) :=
  ⟨by decide, c2_destroy_once none (some ⟨some ("t")⟩) none none
    [Op.render ⟨("a"), none, none, 1⟩, Op.commit, Op.prune ("a"),
     Op.render ⟨("a"), none, none, 2⟩, Op.commit, Op.teardown] (by decide)⟩

/-- C3: LRU correctness. Part (a): with capacity `N = mid.length + 1`, a
commit sequence of `N + 1` candidates with pairwise distinct keys, all
tags different from the current live node's tag, evicts and destroys
exactly the first entry — the destroy log is precisely `[c1.inst]`, the
first key has no live entry — while the other `N` keys remain cached in
order. Part (b): after a successful lookup of a cached key `k`, `k` is the
tail of `keys`; a subsequent overflowing commit of a fresh key evicts the
current head of the promoted order, which is not `k`, and `k` stays
cached. -/
theorem c3_lru (v : VNode) (c1 : Candidate) (mid : List Candidate)
    (clast : Candidate) (s : KAState) (k : String) (e : CacheEntry)
    (nm tg : Option String) (ins : Nat) (cf : Candidate) (m : Nat)
    (hnd : ((c1 :: mid ++ [clast]).map Candidate.key).Nodup)
    (htags : ∀ c, c ∈ c1 :: mid ++ [clast] → c.tag ≠ v.tag)
    (hwf : WFb s = true) (hm : s.maxOpt = some m) (hm1 : 1 ≤ m)
    (hm2 : m ≤ s.keys.length) (hk2 : 2 ≤ s.keys.length)
    (he : getLive s.cache k = some e) (hf : getLive s.cache cf.key = none) :
    ((commitAll (initState (some (mid.length + 1)) (some v) none none)
        (c1 :: mid ++ [clast])).destroyed = [c1.inst] ∧
     getLive (commitAll (initState (some (mid.length + 1)) (some v) none none)
        (c1 :: mid ++ [clast])).cache c1.key = none ∧
     (commitAll (initState (some (mid.length + 1)) (some v) none none)
        (c1 :: mid ++ [clast])).keys = (mid ++ [clast]).map Candidate.key ∧
     (∀ c, c ∈ mid ++ [clast] →
       getLive (commitAll (initState (some (mid.length + 1)) (some v) none none)
          (c1 :: mid ++ [clast])).cache c.key = some (entryOf c))) ∧
    ((lookupStep s ⟨k, nm, tg, ins⟩).2 = some e.componentInstance ∧
     (lookupStep s ⟨k, nm, tg, ins⟩).1.keys.getLast? = some k ∧
     (removeFirst s.keys k).headD ("") ≠ k ∧
     getLive (commitCand (lookupStep s ⟨k, nm, tg, ins⟩).1 cf).cache
       ((removeFirst s.keys k).headD ("")) = none ∧
     getLive (commitCand (lookupStep s ⟨k, nm, tg, ins⟩).1 cf).cache k = some e ∧
     k ∈ (commitCand (lookupStep s ⟨k, nm, tg, ins⟩).1 cf).keys) := by
  constructor
  · -- part (a)
    have hmap : (c1 :: mid ++ [clast]).map Candidate.key =
        c1.key :: (mid.map Candidate.key ++ [clast.key]) := by simp
    rw [hmap, List.nodup_cons] at hnd
    have hndapp := List.nodup_append.mp hnd.2
    have hndmid : (mid.map Candidate.key).Nodup := hndapp.1
    have hclastmid : clast.key ∉ mid.map Candidate.key := by
      intro hmem
      exact hndapp.2.2 hmem (by simp)
    have hc1mid : c1.key ∉ mid.map Candidate.key :=
      fun h => hnd.1 (List.mem_append.mpr (Or.inl h))
    have hc1clast : c1.key ≠ clast.key :=
      fun h => hnd.1 (List.mem_append.mpr (Or.inr (by simp [h])))
    have hnd1 : ((c1 :: mid).map Candidate.key).Nodup := by
      simp only [List.map_cons, List.nodup_cons]
      exact ⟨hc1mid, hndmid⟩
    have hsplit : commitAll (initState (some (mid.length + 1)) (some v) none none)
        (c1 :: mid ++ [clast]) =
        commitCand (commitAll (initState (some (mid.length + 1)) (some v) none none)
          (c1 :: mid)) clast := by
      show commitAll _ ((c1 :: mid) ++ [clast]) = _
      unfold commitAll
      rw [List.foldl_append]
      rfl
    obtain ⟨hA1, hA2, hA3, hA4, hA5⟩ :=
      commitAll_noevict (m := mid.length + 1) (c1 :: mid)
        (initState (some (mid.length + 1)) (some v) none none)
        rfl (by simp [initState])
    have hAkeys : (commitAll (initState (some (mid.length + 1)) (some v) none none)
        (c1 :: mid)).keys = c1.key :: mid.map Candidate.key := by
      rw [hA2]
      simp [initState]
    have hAmax : (commitAll (initState (some (mid.length + 1)) (some v) none none)
        (c1 :: mid)).maxOpt = some (mid.length + 1) := by
      rw [hA4]
      rfl
    have hAcur : (commitAll (initState (some (mid.length + 1)) (some v) none none)
        (c1 :: mid)).current = some v := by
      rw [hA5]
      rfl
    have hAdest : (commitAll (initState (some (mid.length + 1)) (some v) none none)
        (c1 :: mid)).destroyed = [] := by
      rw [hA3]
      rfl
    have hAlive : ∀ c, c ∈ c1 :: mid →
        getLive (commitAll (initState (some (mid.length + 1)) (some v) none none)
          (c1 :: mid)).cache c.key = some (entryOf c) := by
      intro c hc
      rw [hA1]
      exact setAll_getLive_mem (c1 :: mid) _ c hc hnd1
    have hevict := commitCand_evict
      (s := commitAll (initState (some (mid.length + 1)) (some v) none none) (c1 :: mid))
      clast hAmax (by omega) (by rw [hAkeys]; simp)
    rw [hsplit, hevict]
    have hhead : ((commitAll (initState (some (mid.length + 1)) (some v) none none)
        (c1 :: mid)).keys ++ [clast.key]).headD ("") = c1.key := by
      rw [hAkeys]
      rfl
    rw [hhead]
    refine ⟨?_, ?_, ?_, ?_⟩
    · rw [pruneKey_destroyed]
      simp only [hAdest]
      rw [hAcur]
      have hg1 : getLive (setVal (commitAll (initState (some (mid.length + 1))
          (some v) none none) (c1 :: mid)).cache clast.key
          (some (entryOf clast))) c1.key = some (entryOf c1) := by
        rw [getLive_setVal, if_neg (fun h => hc1clast h.symm)]
        exact hAlive c1 (List.mem_cons_self _ _)
      rw [destroyEvents_live_some hg1 v,
        if_pos (show (entryOf c1).tag ≠ v.tag from htags c1 (List.mem_cons_self _ _))]
      rfl
    · rw [pruneKey_getLive, if_pos rfl]
    · rw [pruneKey_keys, hAkeys]
      show removeFirst (c1.key :: (mid.map Candidate.key ++ [clast.key])) c1.key =
        (mid ++ [clast]).map Candidate.key
      rw [removeFirst_cons_self]
      simp
    · intro c hc
      have hckey : c.key ≠ c1.key ∧ (c = clast ∨ c.key ∈ mid.map Candidate.key) := by
        rcases List.mem_append.mp hc with hc | hc
        · refine ⟨?_, Or.inr (List.mem_map_of_mem Candidate.key hc)⟩
          intro h
          refine hc1mid ?_
          rw [← h]
          exact List.mem_map_of_mem Candidate.key hc
        · rw [List.mem_singleton] at hc
          subst hc
          exact ⟨fun h => hc1clast h.symm, Or.inl rfl⟩
      rw [pruneKey_getLive, if_neg (fun h => hckey.1 h.symm), getLive_setVal]
      rcases hckey.2 with hceq | hcmid
      · subst hceq
        rw [if_pos rfl]
      · have hne2 : ¬ (clast.key = c.key) := by
          intro h
          rw [h] at hclastmid
          exact hclastmid hcmid
        rw [if_neg hne2]
        refine hAlive c ?_
        rcases List.mem_append.mp hc with hc | hc
        · exact List.mem_cons_of_mem _ hc
        · rw [List.mem_singleton] at hc
          exact absurd (hc ▸ hcmid) hclastmid
  · -- part (b)
    have hs := swf_of_wfb hwf
    have hkmem : k ∈ s.keys := hs.liveMem k e he
    have hfmem : cf.key ∉ s.keys := fun h => hs.keysLive cf.key h hf
    have hfk : cf.key ≠ k := fun h => hfmem (h ▸ hkmem)
    have hlook := lookupStep_hit (s := s) (c := ⟨k, nm, tg, ins⟩) (e := e) he
    have hrf_ne : removeFirst s.keys k ≠ [] := by
      have hlen := length_removeFirst_of_mem hkmem
      intro hnil
      rw [hnil] at hlen
      simp at hlen
      omega
    have hevmem : (removeFirst s.keys k).headD ("") ∈ removeFirst s.keys k :=
      headD_mem hrf_ne ("")
    have hevne : (removeFirst s.keys k).headD ("") ≠ k := by
      intro hEq
      have hh := hevmem
      rw [hEq] at hh
      exact not_mem_removeFirst hs.keysNodup k hh
    have hs1keys : ((lookupStep s ⟨k, nm, tg, ins⟩).1).keys =
        removeFirst s.keys k ++ [k] := by
      rw [hlook]
    have hs1max : ((lookupStep s ⟨k, nm, tg, ins⟩).1).maxOpt = some m := by
      rw [hlook]
      exact hm
    have hevict := commitCand_evict (s := (lookupStep s ⟨k, nm, tg, ins⟩).1) cf
      hs1max (by omega) (by
        rw [hs1keys]
        simp only [List.length_append, List.length_singleton,
          length_removeFirst_of_mem hkmem]
        omega)
    have hhd : (((lookupStep s ⟨k, nm, tg, ins⟩).1).keys ++ [cf.key]).headD ("") =
        (removeFirst s.keys k).headD ("") := by
      rw [hs1keys, List.append_assoc, headD_append hrf_ne]
    refine ⟨?_, ?_, hevne, ?_, ?_, ?_⟩
    · rw [hlook]
    · rw [hs1keys]
      exact List.getLast?_concat _
    · rw [hevict, hhd, pruneKey_getLive, if_pos rfl]
    · rw [hevict, hhd, pruneKey_getLive, if_neg hevne]
      show getLive (setVal ((lookupStep s ⟨k, nm, tg, ins⟩).1).cache cf.key
        (some (entryOf cf))) k = some e
      have hs1cache : ((lookupStep s ⟨k, nm, tg, ins⟩).1).cache = s.cache := by
        rw [hlook]
      rw [hs1cache, getLive_setVal, if_neg hfk]
      exact he
    · rw [hevict, hhd, pruneKey_keys]
      refine mem_removeFirst_of_ne (fun h => hevne h.symm) ?_
      refine List.mem_append.mpr (Or.inl ?_)
      rw [hs1keys]
      exact List.mem_append.mpr (Or.inr (by simp))

/-- C3 witness: capacity 1 with two commits for part (a); a two-entry
store at capacity 2 with a lookup-promotion followed by an overflowing
commit for part (b). -/
theorem c3_lru_witness :
    ((([⟨("k2"), none, some ("b"), 2⟩] :
        List Candidate).map Candidate.key).Nodup → True) ∧
    (((⟨("k1"), none, some ("a"), 1⟩ :: [] ++ [⟨("k2"), none, some ("b"), 2⟩] :
        List Candidate).map Candidate.key).Nodup ∧
     (∀ c, c ∈ (⟨("k1"), none, some ("a"), 1⟩ :: [] ++
        [⟨("k2"), none, some ("b"), 2⟩] : List Candidate) →
          c.tag ≠ (⟨some ("T")⟩ : VNode).tag) ∧
     WFb (⟨[(("x"), some ⟨none, some ("p"), 7⟩), (("y"), some ⟨none, some ("q"), 8⟩)],
        [("x"), ("y")], some 2, some ⟨some ("T")⟩, none, none, none, []⟩ : KAState) = true) ∧
    (((commitAll (initState (some 1) (some ⟨some ("T")⟩) none none)
        (⟨("k1"), none, some ("a"), 1⟩ :: [] ++ [⟨("k2"), none, some ("b"), 2⟩])).destroyed
          = [1] ∧
      getLive (commitAll (initState (some 1) (some ⟨some ("T")⟩) none none)
        (⟨("k1"), none, some ("a"), 1⟩ :: [] ++
          [⟨("k2"), none, some ("b"), 2⟩])).cache ("k1") = none ∧
      (commitAll (initState (some 1) (some ⟨some ("T")⟩) none none)
        (⟨("k1"), none, some ("a"), 1⟩ :: [] ++ [⟨("k2"), none, some ("b"), 2⟩])).keys
          = (([] ++ [⟨("k2"), none, some ("b"), 2⟩] :
              List Candidate)).map Candidate.key ∧
      (∀ c, c ∈ ([] ++ [⟨("k2"), none, some ("b"), 2⟩] : List Candidate) →
        getLive (commitAll (initState (some 1) (some ⟨some ("T")⟩) none none)
          (⟨("k1"), none, some ("a"), 1⟩ :: [] ++
            [⟨("k2"), none, some ("b"), 2⟩])).cache c.key = some (entryOf c))) ∧
     ((lookupStep (⟨[(("x"), some ⟨none, some ("p"), 7⟩),
          (("y"), some ⟨none, some ("q"), 8⟩)], [("x"), ("y")], some 2,
          some ⟨some ("T")⟩, none, none, none, []⟩ : KAState)
          ⟨("x"), none, none, 7⟩).2 = some (⟨none, some ("p"), 7⟩ :
            CacheEntry).componentInstance ∧
      (lookupStep (⟨[(("x"), some ⟨none, some ("p"), 7⟩),
          (("y"), some ⟨none, some ("q"), 8⟩)], [("x"), ("y")], some 2,
          some ⟨some ("T")⟩, none, none, none, []⟩ : KAState)
          ⟨("x"), none, none, 7⟩).1.keys.getLast? = some ("x") ∧
      (removeFirst [("x"), ("y")] ("x")).headD ("") ≠ ("x") ∧
      getLive (commitCand (lookupStep (⟨[(("x"), some ⟨none, some ("p"), 7⟩),
          (("y"), some ⟨none, some ("q"), 8⟩)], [("x"), ("y")], some 2,
          some ⟨some ("T")⟩, none, none, none, []⟩ : KAState)
          ⟨("x"), none, none, 7⟩).1 ⟨("z"), none, none, 9⟩).cache
        ((removeFirst [("x"), ("y")] ("x")).headD ("")) = none ∧
      getLive (commitCand (lookupStep (⟨[(("x"), some ⟨none, some ("p"), 7⟩),
          (("y"), some ⟨none, some ("q"), 8⟩)], [("x"), ("y")], some 2,
          some ⟨some ("T")⟩, none, none, none, []⟩ : KAState)
          ⟨("x"), none, none, 7⟩).1 ⟨("z"), none, none, 9⟩).cache ("x") =
            some ⟨none, some ("p"), 7⟩ ∧
      ("x") ∈ (commitCand (lookupStep (⟨[(("x"), some ⟨none, some ("p"), 7⟩),
          (("y"), some ⟨none, some ("q"), 8⟩)], [("x"), ("y")], some 2,
          some ⟨some ("T")⟩, none, none, none, []⟩ : KAState)
          ⟨("x"), none, none, 7⟩).1 ⟨("z"), none, none, 9⟩).keys)) :=
  ⟨fun _ => trivial,
   ⟨by decide, by decide, by decide⟩,
   c3_lru ⟨some ("T")⟩ ⟨("k1"), none, some ("a"), 1⟩ []
     ⟨("k2"), none, some ("b"), 2⟩
     (⟨[(("x"), some ⟨none, some ("p"), 7⟩), (("y"), some ⟨none, some ("q"), 8⟩)],
        [("x"), ("y")], some 2, some ⟨some ("T")⟩, none, none, none, []⟩ : KAState)
     ("x") ⟨none, some ("p"), 7⟩ none none 7 ⟨("z"), none, none, 9⟩ 2
     (by decide) (by decide) (by decide) (by decide) (by decide) (by decide)
     (by decide) (by decide) (by decide)⟩

/-- C4: when an entry is removed through `pruneCacheEntry` with the
store's current live node passed (`_vnode = some v`) — the form used by
both the capacity eviction in `cacheVNode` and policy pruning in
`pruneCache` — `$destroy` is invoked if and only if the entry's `tag`
differs from the live node's `tag`: the destroy log grows by exactly the
entry's instance when the tags differ and is unchanged when they are
equal, while the entry is removed from `cache` and `keys` either way. -/
theorem c4_tag_tiebreak (s : KAState) (key : String) (v : VNode)
    (e : CacheEntry) (hcur : s.current = some v)
    (he : getLive s.cache key = some e) (hnd : s.keys.Nodup) :
    (pruneKey s key s.current).destroyed =
      s.destroyed ++ (if e.tag ≠ v.tag then [e.componentInstance] else []) ∧
    getLive (pruneKey s key s.current).cache key = none ∧
    key ∉ (pruneKey s key s.current).keys := by
  refine ⟨?_, ?_, ?_⟩
  · rw [pruneKey_destroyed, hcur, destroyEvents_live_some he]
  · rw [pruneKey_getLive, if_pos rfl]
  · rw [pruneKey_keys]
    exact not_mem_removeFirst hnd key

/-- C4 witness: eviction of a tag-equal entry removes without destroying;
instantiated here on a tag-different entry, so the log grows by one. -/
theorem c4_tag_tiebreak_witness :
    (⟨[(("k"), some ⟨none, some ("a"), 3⟩)], [("k")], none, some ⟨some ("b")⟩,
        none, none, none, []⟩ : KAState).current = some ⟨some ("b")⟩ ∧
    getLive (⟨[(("k"), some ⟨none, some ("a"), 3⟩)], [("k")], none,
        some ⟨some ("b")⟩, none, none, none, []⟩ : KAState).cache ("k") =
      some ⟨none, some ("a"), 3⟩ ∧
    ([("k")] : List String).Nodup ∧
    ((pruneKey (⟨[(("k"), some ⟨none, some ("a"), 3⟩)], [("k")], none,
        some ⟨some ("b")⟩, none, none, none, []⟩ : KAState) ("k")
        (⟨[(("k"), some ⟨none, some ("a"), 3⟩)], [("k")], none, some ⟨some ("b")⟩,
          none, none, none, []⟩ : KAState).current).destroyed =
      [] ++ (if (⟨none, some ("a"), 3⟩ : CacheEntry).tag ≠
        (⟨some ("b")⟩ : VNode).tag then [(⟨none, some ("a"), 3⟩ :
          CacheEntry).componentInstance] else []) ∧
     getLive (pruneKey (⟨[(("k"), some ⟨none, some ("a"), 3⟩)], [("k")], none,
        some ⟨some ("b")⟩, none, none, none, []⟩ : KAState) ("k")
        (⟨[(("k"), some ⟨none, some ("a"), 3⟩)], [("k")], none, some ⟨some ("b")⟩,
          none, none, none, []⟩ : KAState).current).cache ("k") = none ∧
     ("k") ∉ (pruneKey (⟨[(("k"), some ⟨none, some ("a"), 3⟩)], [("k")], none,
        some ⟨some ("b")⟩, none, none, none, []⟩ : KAState) ("k")
        (⟨[(("k"), some ⟨none, some ("a"), 3⟩)], [("k")], none, some ⟨some ("b")⟩,
          none, none, none, []⟩ : KAState).current).keys) :=
  ⟨rfl, by decide, by decide,
   c4_tag_tiebreak (⟨[(("k"), some ⟨none, some ("a"), 3⟩)], [("k")], none,
      some ⟨some ("b")⟩, none, none, none, []⟩ : KAState) ("k") ⟨some ("b")⟩
     ⟨none, some ("a"), 3⟩ rfl (by decide) (by decide)⟩

/-- C5 counterexample: the claim says reevaluation tests `isAdmissible`
against both specifications. In a well-formed store holding an entry named
`a` while the exclude specification is `a`, replacing the include
specification with `a,b` fires only the include watcher, whose filter
consults the new include value alone; the entry named `a` stays live even
though `isAdmissible` on the resulting store's two specifications is
false. -/
theorem c5_counterexample :
    WFb (⟨[(("k"), some ⟨some ("a"), some ("t"), 1⟩)], [("k")], none, none, none,
      some (KAPattern.str ("a")), none, []⟩ : KAState) = true ∧
    (setInclude (⟨[(("k"), some ⟨some ("a"), some ("t"), 1⟩)], [("k")], none, none,
      none, some (KAPattern.str ("a")), none, []⟩ : KAState)
      (some (KAPattern.str ("a,b")))).includePat = some (KAPattern.str ("a,b")) ∧
    (setInclude (⟨[(("k"), some ⟨some ("a"), some ("t"), 1⟩)], [("k")], none, none,
      none, some (KAPattern.str ("a")), none, []⟩ : KAState)
      (some (KAPattern.str ("a,b")))).excludePat = some (KAPattern.str ("a")) ∧
    isAdmissible (some ("a")) (some (KAPattern.str ("a,b")))
      (some (KAPattern.str ("a"))) = false ∧
    getLive (setInclude (⟨[(("k"), some ⟨some ("a"), some ("t"), 1⟩)], [("k")], none,
      none, none, some (KAPattern.str ("a")), none, []⟩ : KAState)
      (some (KAPattern.str ("a,b")))).cache ("k") = some ⟨some ("a"), some ("t"), 1⟩ ∧
    (setInclude (⟨[(("k"), some ⟨some ("a"), some ("t"), 1⟩)], [("k")], none, none,
      none, some (KAPattern.str ("a")), none, []⟩ : KAState)
      (some (KAPattern.str ("a,b")))).keys = [("k")] :=
  ⟨by decide, rfl, rfl, by decide, by decide, by decide⟩

/-- C5 amended: replacing the include specification prunes exactly the
live entries whose name is a non-empty string that fails to match the new
include value (an absent value matches nothing), and replacing the exclude
specification prunes exactly the live entries whose name is a non-empty
string that matches the new exclude value; the other specification is not
consulted, and entries with an absent or empty name are never pruned. -/
theorem c5_policy_prune_amended (s : KAState) (v : Option KAPattern)
    (hwf : WFb s = true) :
    (∀ k, getLive (setInclude s v).cache k =
      if prunedEntry s (failsInc v) k = true then none else getLive s.cache k) ∧
    (setInclude s v).keys = s.keys.filter (fun k2 => !prunedEntry s (failsInc v) k2) ∧
    (∀ k, getLive (setExclude s v).cache k =
      if prunedEntry s (failsExc v) k = true then none else getLive s.cache k) ∧
    (setExclude s v).keys = s.keys.filter (fun k2 => !prunedEntry s (failsExc v) k2) := by
  have hs := swf_of_wfb hwf
  exact ⟨setInclude_getLive s v hs.cacheNodup,
    setInclude_keys s v hs.cacheNodup hs.keysNodup,
    setExclude_getLive s v hs.cacheNodup,
    setExclude_keys s v hs.cacheNodup hs.keysNodup⟩

/-- C5 amended witness: entries named `a`, `b` and an unnamed entry;
excluding `b` prunes exactly the entry named `b`. -/
theorem c5_policy_prune_amended_witness :
    WFb (⟨[(("ka"), some ⟨some ("a"), none, 1⟩), (("kb"), some ⟨some ("b"), none, 2⟩),
        (("kc"), some ⟨none, none, 3⟩)], [("ka"), ("kb"), ("kc")], none, none,
        none, none, none, []⟩ : KAState) = true ∧
    (∀ k, getLive (setExclude (⟨[(("ka"), some ⟨some ("a"), none, 1⟩),
        (("kb"), some ⟨some ("b"), none, 2⟩), (("kc"), some ⟨none, none, 3⟩)],
        [("ka"), ("kb"), ("kc")], none, none, none, none, none, []⟩ : KAState)
        (some (KAPattern.str ("b")))).cache k =
      if prunedEntry (⟨[(("ka"), some ⟨some ("a"), none, 1⟩),
          (("kb"), some ⟨some ("b"), none, 2⟩), (("kc"), some ⟨none, none, 3⟩)],
          [("ka"), ("kb"), ("kc")], none, none, none, none, none, []⟩ : KAState)
          (failsExc (some (KAPattern.str ("b")))) k = true then none
      else getLive (⟨[(("ka"), some ⟨some ("a"), none, 1⟩),
          (("kb"), some ⟨some ("b"), none, 2⟩), (("kc"), some ⟨none, none, 3⟩)],
          [("ka"), ("kb"), ("kc")], none, none, none, none, none, []⟩ : KAState).cache k) ∧
    (setExclude (⟨[(("ka"), some ⟨some ("a"), none, 1⟩),
        (("kb"), some ⟨some ("b"), none, 2⟩), (("kc"), some ⟨none, none, 3⟩)],
        [("ka"), ("kb"), ("kc")], none, none, none, none, none, []⟩ : KAState)
        (some (KAPattern.str ("b")))).keys = [("ka"), ("kc")] := by
  have h := c5_policy_prune_amended (⟨[(("ka"), some ⟨some ("a"), none, 1⟩),
      (("kb"), some ⟨some ("b"), none, 2⟩), (("kc"), some ⟨none, none, 3⟩)],
      [("ka"), ("kb"), ("kc")], none, none, none, none, none, []⟩ : KAState)
      (some (KAPattern.str ("b"))) (by decide)
  refine ⟨by decide, h.2.2.1, ?_⟩
  rw [h.2.2.2]
  decide

/-- C6 counterexample: the claim treats any provided include specification
as set, but the source guards the check with JS truthiness, under which
the empty-string pattern is falsy and skipped: with include `""` and name
`x`, the code admits the vnode while the claimed case analysis (name does
not equal any comma-separated segment of `""`) rejects it. -/
theorem c6_counterexample :
    isAdmissible (some ("x")) (some (KAPattern.str (""))) none = true ∧
    isAdmissibleClaim (some ("x")) (some (KAPattern.str (""))) none = false :=
  ⟨by decide, by decide⟩

/-- C6 amended: the admissibility decision of `render` agrees with the
claimed case analysis once JS truthiness is made explicit — a pattern
counts as set only when truthy (any array or RegExp, or a non-empty
string) and a name as present only when non-empty — and the match
semantics are exactly as claimed: a string specification matches iff the
name equals one of its comma-separated segments (case-sensitive, exact), a
list iff the name is an element, and a pattern iff it accepts the name. -/
theorem c6_admissibility_amended :
    (∀ name inc exc, isAdmissible name inc exc = isAdmissibleSpec name inc exc) ∧
    (∀ s n, matchesPat (KAPattern.str s) n = decide (n ∈ splitComma s)) ∧
    (∀ l n, matchesPat (KAPattern.arr l) n = decide (n ∈ l)) ∧
    (∀ f n, matchesPat (KAPattern.regexp f) n = f n) := by
  refine ⟨?_, fun _ _ => rfl, fun _ _ => rfl, fun _ _ => rfl⟩
  intro name inc exc
  unfold isAdmissible isAdmissibleSpec
  cases hti : truthyPat inc <;> cases hts : truthyStr name <;>
    cases hte : truthyPat exc <;>
    cases hmi : matchesV inc (name.getD ("")) <;>
    cases hme : matchesV exc (name.getD ("")) <;> simp [hti, hts, hte, hmi, hme]

/-- C7: the `destroyed()` hook destroys every instance still held, exactly
once and with no tag tie-break (it passes no current vnode): afterwards no
key has a live entry, `keys` is empty, the destroy log is duplicate-free
and counts each previously live instance exactly once; a second teardown
is the identity, so it invokes no further destroys. -/
theorem c7_teardown (s : KAState) (hwf : WFb s = true) :
    (∀ k, getLive (destroyedHook s).cache k = none) ∧
    (destroyedHook s).keys = [] ∧
    (destroyedHook s).destroyed.Nodup ∧
    (∀ k e, getLive s.cache k = some e →
      (destroyedHook s).destroyed.count e.componentInstance = 1) ∧
    destroyedHook (destroyedHook s) = destroyedHook s := by
  have hs := swf_of_wfb hwf
  have hd := dwf_of_wfb hwf
  have hts := destroyedHook_swf hs
  have htd := destroyedHook_dwf hs hd
  have hgl : ∀ k, getLive (destroyedHook s).cache k = none := by
    intro k
    show getLive ((cacheKeys s.cache).foldl
      (fun acc k2 => pruneKey acc k2 none) s).cache k = none
    rw [destroyFold_getLive]
    by_cases hk : k ∈ cacheKeys s.cache
    · rw [if_pos hk]
    · rw [if_neg hk]
      unfold getLive
      rw [getEnt_eq_none_iff.mpr hk]
  have hkeys : (destroyedHook s).keys = [] := by
    show ((cacheKeys s.cache).foldl (fun acc k2 => pruneKey acc k2 none) s).keys = []
    rw [destroyFold_keys, foldl_removeFirst_filter _ _ hs.keysNodup]
    rw [List.filter_eq_nil_iff]
    intro a ha
    have hmem : a ∈ cacheKeys s.cache := by
      cases hg : getLive s.cache a with
      | none => exact absurd hg (hs.keysLive a ha)
      | some e => exact mem_cacheKeys_of_getLive hg
    simp [hmem]
  refine ⟨hgl, hkeys, htd.destNodup, ?_, ?_⟩
  · intro k e he
    have hmem : e.componentInstance ∈ (destroyedHook s).destroyed := by
      show _ ∈ ((cacheKeys s.cache).foldl
        (fun acc k2 => pruneKey acc k2 none) s).destroyed
      exact destroyFold_dest_complete _ s k e (mem_cacheKeys_of_getLive he) he
    exact List.count_eq_one_of_mem htd.destNodup hmem
  · have hall : ∀ p, p ∈ (destroyedHook s).cache → p.2 = none :=
      all_none_of_getLive hts.cacheNodup hgl
    show (cacheKeys (destroyedHook s).cache).foldl
      (fun acc k2 => pruneKey acc k2 none) (destroyedHook s) = destroyedHook s
    exact destroyFold_fix hall hkeys _ (fun k hk => hk)

/-- C7 witness: a two-entry store, one entry sharing the current tag (so
the tie-break would apply elsewhere, but not at teardown). -/
theorem c7_teardown_witness :
    WFb (⟨[(("a"), some ⟨none, some ("t"), 1⟩), (("b"), some ⟨none, some ("u"), 2⟩)],
      [("a"), ("b")], none, some ⟨some ("t")⟩, none, none, none, []⟩ : KAState) = true ∧
    ((∀ k, getLive (destroyedHook (⟨[(("a"), some ⟨none, some ("t"), 1⟩),
        (("b"), some ⟨none, some ("u"), 2⟩)], [("a"), ("b")], none,
        some ⟨some ("t")⟩, none, none, none, []⟩ : KAState)).cache k = none) ∧
     (destroyedHook (⟨[(("a"), some ⟨none, some ("t"), 1⟩),
        (("b"), some ⟨none, some ("u"), 2⟩)], [("a"), ("b")], none,
        some ⟨some ("t")⟩, none, none, none, []⟩ : KAState)).keys = [] ∧
     (destroyedHook (⟨[(("a"), some ⟨none, some ("t"), 1⟩),
        (("b"), some ⟨none, some ("u"), 2⟩)], [("a"), ("b")], none,
        some ⟨some ("t")⟩, none, none, none, []⟩ : KAState)).destroyed.Nodup ∧
     (∀ k e, getLive (⟨[(("a"), some ⟨none, some ("t"), 1⟩),
        (("b"), some ⟨none, some ("u"), 2⟩)], [("a"), ("b")], none,
        some ⟨some ("t")⟩, none, none, none, []⟩ : KAState).cache k = some e →
       (destroyedHook (⟨[(("a"), some ⟨none, some ("t"), 1⟩),
          (("b"), some ⟨none, some ("u"), 2⟩)], [("a"), ("b")], none,
          some ⟨some ("t")⟩, none, none, none, []⟩ : KAState)).destroyed.count
            e.componentInstance = 1) ∧
     destroyedHook (destroyedHook (⟨[(("a"), some ⟨none, some ("t"), 1⟩),
        (("b"), some ⟨none, some ("u"), 2⟩)], [("a"), ("b")], none,
        some ⟨some ("t")⟩, none, none, none, []⟩ : KAState)) =
       destroyedHook (⟨[(("a"), some ⟨none, some ("t"), 1⟩),
        (("b"), some ⟨none, some ("u"), 2⟩)], [("a"), ("b")], none,
        some ⟨some ("t")⟩, none, none, none, []⟩ : KAState)) :=
  ⟨by decide,
   c7_teardown (⟨[(("a"), some ⟨none, some ("t"), 1⟩),
      (("b"), some ⟨none, some ("u"), 2⟩)], [("a"), ("b")], none,
      some ⟨some ("t")⟩, none, none, none, []⟩ : KAState) (by decide)⟩

/-- C8: staging is invisible until commit. An admissible render miss only
records the staged candidate — `cache`, `keys`, the capacity field and the
destroy log are untouched. Across any valid operation sequence on a
well-formed store that contains no commit, no cache slot ever gains an
entry and no key enters the order, so a staged-then-abandoned candidate
never enters them. A commit with nothing staged is a complete no-op: the
whole state, including the destroy log, is unchanged. -/
theorem c8_staging_frame (s : KAState) (c : Candidate)
    (s2 : KAState) (ops : List Op) (s3 : KAState)
    (h1 : isAdmissible c.name s.includePat s.excludePat = true)
    (h2 : getLive s.cache c.key = none)
    (hwf2 : WFb s2 = true)
    (h3 : ops.all noCommitB = true)
    (h4 : s3.staged = none) :
    renderStep s c = ({ s with staged := some c }, none) ∧
    (∀ k, getLive (runOps s2 ops).cache k = getLive s2.cache k ∨
       getLive (runOps s2 ops).cache k = none) ∧
    (∀ k, k ∈ (runOps s2 ops).keys → k ∈ s2.keys) ∧
    cacheVNode s3 = s3 := by
  have hshr := runOps_shrinks (swf_of_wfb hwf2) h3
  exact ⟨renderStep_miss h1 h2, hshr.1, hshr.2, cacheVNode_none h4⟩

/-- C8 witness: a miss-stage on an empty store, a commit-free trace that
stages and abandons, and an empty commit. -/
theorem c8_staging_frame_witness :
    isAdmissible (some ("n")) (initState none none none none).includePat
      (initState none none none none).excludePat = true ∧
    getLive (initState none none none none).cache ("a") = none ∧
    WFb (initState none none none none) = true ∧
    ([Op.render ⟨("a"), some ("n"), none, 1⟩, Op.prune ("a"),
      Op.setCurrent none].all noCommitB) = true ∧
    (initState none none none none).staged = none ∧
    (renderStep (initState none none none none) ⟨("a"), some ("n"), none, 1⟩ =
      ({ initState none none none none with
         staged := some ⟨("a"), some ("n"), none, 1⟩ }, none) ∧
     (∀ k, getLive (runOps (initState none none none none)
        [Op.render ⟨("a"), some ("n"), none, 1⟩, Op.prune ("a"),
         Op.setCurrent none]).cache k =
          getLive (initState none none none none).cache k ∨
       getLive (runOps (initState none none none none)
        [Op.render ⟨("a"), some ("n"), none, 1⟩, Op.prune ("a"),
         Op.setCurrent none]).cache k = none) ∧
     (∀ k, k ∈ (runOps (initState none none none none)
        [Op.render ⟨("a"), some ("n"), none, 1⟩, Op.prune ("a"),
         Op.setCurrent none]).keys → k ∈ (initState none none none none).keys) ∧
     cacheVNode (initState none none none none) = initState none none none none) :=
  ⟨by decide, by decide, by decide, by decide, rfl,
   c8_staging_frame (initState none none none none) ⟨("a"), some ("n"), none, 1⟩
     (initState none none none none)
     [Op.render ⟨("a"), some ("n"), none, 1⟩, Op.prune ("a"), Op.setCurrent none]
     (initState none none none none)
     (by decide) (by decide) (by decide) (by decide) rfl⟩

/-- C9: `prune(key)` — `pruneCacheEntry` invoked with the store's
`_vnode` — empties exactly the slot at `key`: afterwards `key` has no live
entry, the keys list is the original with `key` filtered out (a middle
removal that preserves the relative order of every other key), and every
other slot is untouched; when `key` had no live entry the prune is a no-op
on the observable store: same live slots everywhere, `keys` unchanged, and
no destroy is invoked. -/
theorem c9_prune_frame (s : KAState) (key : String) (hwf : WFb s = true) :
    getLive (pruneKey s key s.current).cache key = none ∧
    (pruneKey s key s.current).keys = s.keys.filter (fun k => k != key) ∧
    (∀ k, k ≠ key → getLive (pruneKey s key s.current).cache k = getLive s.cache k) ∧
    (getLive s.cache key = none →
      (pruneKey s key s.current).keys = s.keys ∧
      (pruneKey s key s.current).destroyed = s.destroyed ∧
      (∀ k, getLive (pruneKey s key s.current).cache k = getLive s.cache k)) := by
  have hs := swf_of_wfb hwf
  refine ⟨?_, ?_, ?_, ?_⟩
  · rw [pruneKey_getLive, if_pos rfl]
  · rw [pruneKey_keys, removeFirst_eq_filter hs.keysNodup]
  · intro k hk
    rw [pruneKey_getLive, if_neg (fun h => hk h.symm)]
  · intro hnone
    have hkmem : key ∉ s.keys := fun h => hs.keysLive key h hnone
    refine ⟨?_, ?_, ?_⟩
    · rw [pruneKey_keys, removeFirst_of_not_mem hkmem]
    · rw [pruneKey_destroyed, destroyEvents_none hnone, List.append_nil]
    · intro k
      rw [pruneKey_getLive]
      by_cases hk : key = k
      · rw [if_pos hk, ← hk, hnone]
      · rw [if_neg hk]

/-- C9 witness: a three-entry store pruned in the middle, and a prune of a
tombstoned key. -/
theorem c9_prune_frame_witness :
    WFb (⟨[(("a"), some ⟨none, none, 1⟩), (("b"), some ⟨none, none, 2⟩),
        (("c"), some ⟨none, none, 3⟩), (("d"), none)],
        [("a"), ("b"), ("c")], none, none, none, none, none, []⟩ : KAState) = true ∧
    ((getLive (pruneKey (⟨[(("a"), some ⟨none, none, 1⟩), (("b"), some ⟨none, none, 2⟩),
        (("c"), some ⟨none, none, 3⟩), (("d"), none)], [("a"), ("b"), ("c")],
        none, none, none, none, none, []⟩ : KAState) ("b")
        (⟨[(("a"), some ⟨none, none, 1⟩), (("b"), some ⟨none, none, 2⟩),
          (("c"), some ⟨none, none, 3⟩), (("d"), none)], [("a"), ("b"), ("c")],
          none, none, none, none, none, []⟩ : KAState).current).cache ("b") = none) ∧
     (pruneKey (⟨[(("a"), some ⟨none, none, 1⟩), (("b"), some ⟨none, none, 2⟩),
        (("c"), some ⟨none, none, 3⟩), (("d"), none)], [("a"), ("b"), ("c")],
        none, none, none, none, none, []⟩ : KAState) ("b")
        (⟨[(("a"), some ⟨none, none, 1⟩), (("b"), some ⟨none, none, 2⟩),
          (("c"), some ⟨none, none, 3⟩), (("d"), none)], [("a"), ("b"), ("c")],
          none, none, none, none, none, []⟩ : KAState).current).keys =
      ([("a"), ("b"), ("c")] : List String).filter (fun k => k != ("b")) ∧
     (∀ k, k ≠ ("b") → getLive (pruneKey (⟨[(("a"), some ⟨none, none, 1⟩),
        (("b"), some ⟨none, none, 2⟩), (("c"), some ⟨none, none, 3⟩), (("d"), none)],
        [("a"), ("b"), ("c")], none, none, none, none, none, []⟩ : KAState) ("b")
        (⟨[(("a"), some ⟨none, none, 1⟩), (("b"), some ⟨none, none, 2⟩),
          (("c"), some ⟨none, none, 3⟩), (("d"), none)], [("a"), ("b"), ("c")],
          none, none, none, none, none, []⟩ : KAState).current).cache k =
       getLive (⟨[(("a"), some ⟨none, none, 1⟩), (("b"), some ⟨none, none, 2⟩),
          (("c"), some ⟨none, none, 3⟩), (("d"), none)], [("a"), ("b"), ("c")],
          none, none, none, none, none, []⟩ : KAState).cache k) ∧
     (getLive (⟨[(("a"), some ⟨none, none, 1⟩), (("b"), some ⟨none, none, 2⟩),
        (("c"), some ⟨none, none, 3⟩), (("d"), none)], [("a"), ("b"), ("c")],
        none, none, none, none, none, []⟩ : KAState).cache ("b") = none →
      (pruneKey (⟨[(("a"), some ⟨none, none, 1⟩), (("b"), some ⟨none, none, 2⟩),
        (("c"), some ⟨none, none, 3⟩), (("d"), none)], [("a"), ("b"), ("c")],
        none, none, none, none, none, []⟩ : KAState) ("b")
        (⟨[(("a"), some ⟨none, none, 1⟩), (("b"), some ⟨none, none, 2⟩),
          (("c"), some ⟨none, none, 3⟩), (("d"), none)], [("a"), ("b"), ("c")],
          none, none, none, none, none, []⟩ : KAState).current).keys =
        [("a"), ("b"), ("c")] ∧
      (pruneKey (⟨[(("a"), some ⟨none, none, 1⟩), (("b"), some ⟨none, none, 2⟩),
        (("c"), some ⟨none, none, 3⟩), (("d"), none)], [("a"), ("b"), ("c")],
        none, none, none, none, none, []⟩ : KAState) ("b")
        (⟨[(("a"), some ⟨none, none, 1⟩), (("b"), some ⟨none, none, 2⟩),
          (("c"), some ⟨none, none, 3⟩), (("d"), none)], [("a"), ("b"), ("c")],
          none, none, none, none, none, []⟩ : KAState).current).destroyed = [] ∧
      (∀ k, getLive (pruneKey (⟨[(("a"), some ⟨none, none, 1⟩),
        (("b"), some ⟨none, none, 2⟩), (("c"), some ⟨none, none, 3⟩), (("d"), none)],
        [("a"), ("b"), ("c")], none, none, none, none, none, []⟩ : KAState) ("b")
        (⟨[(("a"), some ⟨none, none, 1⟩), (("b"), some ⟨none, none, 2⟩),
          (("c"), some ⟨none, none, 3⟩), (("d"), none)], [("a"), ("b"), ("c")],
          none, none, none, none, none, []⟩ : KAState).current).cache k =
        getLive (⟨[(("a"), some ⟨none, none, 1⟩), (("b"), some ⟨none, none, 2⟩),
          (("c"), some ⟨none, none, 3⟩), (("d"), none)], [("a"), ("b"), ("c")],
          none, none, none, none, none, []⟩ : KAState).cache k))) :=
  ⟨by decide,
   c9_prune_frame (⟨[(("a"), some ⟨none, none, 1⟩), (("b"), some ⟨none, none, 2⟩),
      (("c"), some ⟨none, none, 3⟩), (("d"), none)], [("a"), ("b"), ("c")],
      none, none, none, none, none, []⟩ : KAState) ("b") (by decide)⟩

/-- C10: a removed entry's `null` tombstone is indistinguishable from
absence at the lookup interface: `pruneCacheEntry` leaves the key with no
live entry; a render lookup of any key without a live entry — tombstoned
or never cached — is a miss that returns no cached instance, leaves
`cache`, `keys` and the destroy log unchanged, and stages the candidate;
and the tombstone write `cache[key] = null` yields exactly the same
`cache[k]` observations as deleting the key outright. -/
theorem c10_tombstone_lookup (s1 : KAState) (key1 : String) (cur : Option VNode)
    (s : KAState) (c : Candidate) (c2 : CacheMap) (key2 : String)
    (ha : isAdmissible c.name s.includePat s.excludePat = true)
    (he : getLive s.cache c.key = none) :
    getLive (pruneKey s1 key1 cur).cache key1 = none ∧
    renderStep s c = ({ s with staged := some c }, none) ∧
    (∀ k, getLive (setVal c2 key2 none) k = getLive (eraseKey c2 key2) k) := by
  refine ⟨?_, renderStep_miss ha he, ?_⟩
  · rw [pruneKey_getLive, if_pos rfl]
  · intro k
    exact (getLive_eraseKey c2 key2 k).symm

/-- C10 witness: prune a key, then look it up again on the tombstoned
store. -/
theorem c10_tombstone_lookup_witness :
    isAdmissible (some ("n"))
      (⟨[(("a"), none)], [], none, none, none, none, none, [1]⟩ : KAState).includePat
      (⟨[(("a"), none)], [], none, none, none, none, none, [1]⟩ : KAState).excludePat
        = true ∧
    getLive (⟨[(("a"), none)], [], none, none, none, none, none,
      [1]⟩ : KAState).cache ("a") = none ∧
    (getLive (pruneKey (⟨[(("a"), some ⟨none, none, 1⟩)], [("a")], none, none, none,
        none, none, []⟩ : KAState) ("a") none).cache ("a") = none ∧
     renderStep (⟨[(("a"), none)], [], none, none, none, none, none,
        [1]⟩ : KAState) ⟨("a"), some ("n"), none, 2⟩ =
      ({ (⟨[(("a"), none)], [], none, none, none, none, none, [1]⟩ : KAState) with
         staged := some ⟨("a"), some ("n"), none, 2⟩ }, none) ∧
     (∀ k, getLive (setVal [(("a"), some ⟨none, none, 1⟩), (("b"), some ⟨none, none, 2⟩)]
        ("a") none) k =
       getLive (eraseKey [(("a"), some ⟨none, none, 1⟩), (("b"), some ⟨none, none, 2⟩)]
        ("a")) k)) :=
  ⟨by decide, by decide,
   c10_tombstone_lookup (⟨[(("a"), some ⟨none, none, 1⟩)], [("a")], none, none,
      none, none, none, []⟩ : KAState) ("a") none
     (⟨[(("a"), none)], [], none, none, none, none, none, [1]⟩ : KAState)
     ⟨("a"), some ("n"), none, 2⟩
     [(("a"), some ⟨none, none, 1⟩), (("b"), some ⟨none, none, 2⟩)] ("a")
     (by decide) (by decide)⟩

end KeepAlive
